import Mathlib

/-!
Verification of the ipv4-classify prefix-aggregation core.

The definitions below are a shallow embedding of `src/lib.rs`:
`Subnet` (bits / mask_len / mask, machine integers modelled as `Nat`
with explicit `% 2^32` where u32 wrap-around matters) and
`AddressTree` (children `None` is the `leaf` constructor, `Some cs`
the `node` constructor).  Fallible Rust functions return
`Except String _`; a `.error` value models a debug-build panic
(arithmetic overflow of a shift amount or of a `u8` subtraction
panics in debug builds) or an `Err` result where noted.
Mutation (`push(&mut self)`) is modelled by returning the new tree
together with the `Result` payload: the second component `none`
models `Ok(())`, `some s` models `Err(s)`.
-/

/-- mask value with the top `n` bits (of 32) set: `2^32 - 2^(32-n)` for `n ≤ 32`. -/
def maskOf (n : Nat) : Nat := 2^32 - 2^(32 - n)

/-- IPv4 subnet representation: `bits` (u32 address), `mask_len`
(number of significant bits), `mask` (prebuilt leading-bits mask). -/
structure Subnet where
  bits : Nat
  mask_len : Nat
  mask : Nat
deriving DecidableEq, Repr

/-- root of all ipv4 addresses: `0.0.0.0/0`. -/
def Subnet.root : Subnet := { bits := 0, mask_len := 0, mask := 0 }

/-- make subnet from octets and mask length; clears bits below the mask.
The source computes `u32::MAX << (32 - mask_len)`: when the shift amount
reaches 32 (i.e. `mask_len = 0`) a debug build panics with a
shift-overflow, modelled as the second error branch. -/
def Subnet.new (o1 o2 o3 o4 mask_len : Nat) : Except String Subnet :=
  if mask_len > 32 then .error "mask len is > 32"
  else if 32 - mask_len == 32 then .error "panic: attempt to shift left with overflow"
  else
    let mask := ((2^32 - 1) <<< (32 - mask_len)) % 2^32
    .ok { bits := (o1 * 2^24 + o2 * 2^16 + o3 * 2^8 + o4) &&& mask
          mask_len := mask_len
          mask := mask }

/-- check whether subnet includes other subnet. -/
def Subnet.contains (self other : Subnet) : Bool :=
  if self.mask_len > other.mask_len then false
  else other.bits &&& self.mask == self.bits

/-- the `while curr_mask_len >= min_mask` loop of `common_of`.
When `curr_mask_len` is 0 and no match is found, the source decrements
a `u8` below zero: a debug build panics with a subtract-overflow. -/
def Subnet.commonLoop (b1 b2 min_mask : Nat) : Nat → Nat → Except String (Option Subnet)
  | curr_mask_len, curr_mask =>
    if min_mask ≤ curr_mask_len then
      if b1 &&& curr_mask == b2 &&& curr_mask then
        .ok (some { bits := b1 &&& curr_mask, mask_len := curr_mask_len, mask := curr_mask })
      else
        match curr_mask_len with
        | 0 => .error "panic: attempt to subtract with overflow"
        | n + 1 => Subnet.commonLoop b1 b2 min_mask n ((curr_mask <<< 1) % 2^32)
    else .ok none

/-- find and return the closest common of the two subnets if it exists;
`min_mask` is the minimal (shortest) mask to look for; `None` of the
argument defaults to 0.  The explicit `panic!` of the source is the first
error branch; computing `u32::MAX << (32 - curr_mask_len)` additionally
underflows / shift-overflows in a debug build when `curr_mask_len`
exceeds 32 or equals 0 (second and third error branches). -/
def Subnet.common_of (s1 s2 : Subnet) (min_mask : Option Nat) : Except String (Option Subnet) :=
  let min_mask := match min_mask with | some v => v | none => 0
  let curr_mask_len := min s1.mask_len s2.mask_len
  if min_mask > curr_mask_len then
    .error "panic: min_mask is bigger than curr_mask_len"
  else if 32 < curr_mask_len then .error "panic: attempt to subtract with overflow"
  else if 32 - curr_mask_len == 32 then .error "panic: attempt to shift left with overflow"
  else
    Subnet.commonLoop s1.bits s2.bits min_mask curr_mask_len
      (((2^32 - 1) <<< (32 - curr_mask_len)) % 2^32)

/-- Display rendering: dotted quad plus `/mask_len`. -/
def Subnet.toString (s : Subnet) : String :=
  Nat.repr ((s.bits &&& (0xFF <<< 24)) >>> 24) ++ "." ++
  Nat.repr ((s.bits &&& (0xFF <<< 16)) >>> 16) ++ "." ++
  Nat.repr ((s.bits &&& (0xFF <<< 8)) >>> 8) ++ "." ++
  Nat.repr (s.bits &&& 0xFF) ++ "/" ++ Nat.repr s.mask_len

/-- tree of subnets: `leaf s` models `children == None`,
`node s cs` models `children == Some(cs)`. -/
inductive AddressTree where
  | leaf (subnet : Subnet)
  | node (subnet : Subnet) (children : List AddressTree)
deriving Repr

/-- the `subnet` field of a tree node. -/
def AddressTree.subnet : AddressTree → Subnet
  | .leaf s => s
  | .node s _ => s

/-- `children.is_none()` of a tree node. -/
def AddressTree.isLeaf : AddressTree → Bool
  | .leaf _ => true
  | .node _ _ => false

/-- make a new empty tree starting from 0.0.0.0/0. -/
def AddressTree.new : AddressTree := .leaf Subnet.root

/-- make a new empty tree starting at `subnet`. -/
def AddressTree.of (subnet : Subnet) : AddressTree := .leaf subnet

/-- replace this node's subnet with `new_subnet`, demoting the previous
subnet (with its children, if any) to a first child, with `neighbour`
as the second child. -/
def AddressTree.stepdown : AddressTree → Subnet → AddressTree → AddressTree
  | .leaf s, new_subnet, neighbour => .node new_subnet [.leaf s, neighbour]
  | .node s cs, new_subnet, neighbour => .node new_subnet [.node s cs, neighbour]

mutual

/-- try to place the supplied subnet in the tree.
Result `(t', none)` models `Ok(())` with post-state `t'`;
`(t', some s)` models `Err(s)` (the tree is unchanged in that case). -/
def AddressTree.push (t : AddressTree) (new_subnet : Subnet) :
    Except String (AddressTree × Option Subnet) :=
  if t.subnet.contains new_subnet then
    match t with
    | .leaf s => .ok (.node s [AddressTree.of new_subnet], none)
    | .node s cs =>
      match AddressTree.pushLoop s.mask_len new_subnet cs with
      | .error e => .error e
      | .ok cs' => .ok (.node s cs', none)
  else .ok (t, some new_subnet)

/-- the `for ch in children` loop of `push`, carrying `to_consume`.
Once the incoming subnet is consumed (delegated or merged) the remaining
iterations only return `Ok`, so the loop is modelled as returning
immediately with the rest of the children unchanged; if the subnet
survives the whole scan it is appended as a new child. -/
def AddressTree.pushLoop (m : Nat) (new_subnet : Subnet) :
    List AddressTree → Except String (List AddressTree)
  | [] => .ok [AddressTree.of new_subnet]
  | ch :: rest =>
    match AddressTree.push ch new_subnet with
    | .error e => .error e
    | .ok (ch', none) => .ok (ch' :: rest)
    | .ok (ch', some rejected) =>
      match Subnet.common_of ch'.subnet rejected (some (m + 1)) with
      | .error e => .error e
      | .ok (some inter) =>
        .ok (AddressTree.stepdown ch' inter (AddressTree.of rejected) :: rest)
      | .ok none =>
        match AddressTree.pushLoop m rejected rest with
        | .error e => .error e
        | .ok rest' => .ok (ch' :: rest')
end

mutual

/-- extract the subnets that contain at least one direct mask-32 child:
chop the subtree at the first IP address found among the children. -/
def AddressTree.get_subnets (t : AddressTree) : List AddressTree :=
  match t with
  | .leaf _ => []
  | .node s cs =>
    if cs.any (fun ch => ch.subnet.mask_len == 32) then [.node s cs]
    else AddressTree.get_subnetsList cs

/-- the `for ch in children` accumulation of `get_subnets`. -/
def AddressTree.get_subnetsList : List AddressTree → List AddressTree
  | [] => []
  | ch :: rest => AddressTree.get_subnets ch ++ AddressTree.get_subnetsList rest
end

mutual

/-- collect the childless nodes found in children lists. -/
def AddressTree.get_leafs (t : AddressTree) : List AddressTree :=
  match t with
  | .leaf _ => []
  | .node _ cs => AddressTree.get_leafsList cs

/-- the `for ch in children` accumulation of `get_leafs`. -/
def AddressTree.get_leafsList : List AddressTree → List AddressTree
  | [] => []
  | ch :: rest =>
    (match ch with
     | .leaf s => [AddressTree.leaf s]
     | .node s cs => AddressTree.get_leafs (.node s cs)) ++ AddressTree.get_leafsList rest
end

/-- association-list insert with replacement, modelling `HashMap::insert`. -/
def mapInsert (k : String) (v : List String) :
    List (String × List String) → List (String × List String)
  | [] => [(k, v)]
  | (k', v') :: rest => if k' == k then (k, v) :: rest else (k', v') :: mapInsert k v rest

/-- make a map of subnets to all their addresses (keys and values are the
rendered strings; `HashMap` is modelled as an association list). -/
def AddressTree.get_subnets_map (t : AddressTree) : List (String × List String) :=
  (AddressTree.get_subnets t).foldl
    (fun acc s =>
      mapInsert (Subnet.toString s.subnet)
        ((AddressTree.get_leafs s).map (fun l => Subnet.toString l.subnet)) acc) []

/-- the insertion loop of `find_subnets`: push each address in turn,
aborting the run if a push reports the address out of the address space. -/
def insertAll (t : AddressTree) : List Subnet → Except String AddressTree
  | [] => .ok t
  | a :: rest =>
    match AddressTree.push t a with
    | .error e => .error e
    | .ok (t', none) => insertAll t' rest
    | .ok (_, some a') =>
      .error ("address " ++ Subnet.toString a' ++ " doesn't belong to IPv4 address space")

mutual

/-- every node of the tree, the root included. -/
def AddressTree.allNodes : AddressTree → List AddressTree
  | .leaf s => [.leaf s]
  | .node s cs => .node s cs :: AddressTree.allNodesList cs

/-- all nodes of a children list. -/
def AddressTree.allNodesList : List AddressTree → List AddressTree
  | [] => []
  | ch :: rest => AddressTree.allNodes ch ++ AddressTree.allNodesList rest
end

instance {e a : Type} [DecidableEq e] [DecidableEq a] : DecidableEq (Except e a) := fun x y =>
  match x, y with
  | .error e1, .error e2 => if h : e1 = e2 then .isTrue (by simp [h]) else .isFalse (by simp [h])
  | .ok a1, .ok a2 => if h : a1 = a2 then .isTrue (by simp [h]) else .isFalse (by simp [h])
  | .error _, .ok _ => .isFalse (by simp)
  | .ok _, .error _ => .isFalse (by simp)

mutual

/-- Two-phase insertion as the specification words it (§4.2 steps 1-4):
first scan the children in order for the first child whose subtree accepts
the incoming prefix recursively; only if no child accepts, scan again for
the first child admitting a step-down merge; otherwise append a new sibling.
Stated for comparison with the single-pass `AddressTree.push` of the source. -/
def AddressTree.pushSpec (t : AddressTree) (new_subnet : Subnet) :
    Except String (AddressTree × Option Subnet) :=
  if t.subnet.contains new_subnet then
    match t with
    | .leaf s => .ok (.node s [AddressTree.of new_subnet], none)
    | .node s cs =>
      match AddressTree.acceptScan new_subnet cs with
      | some r =>
        match r with
        | .error e => .error e
        | .ok cs' => .ok (.node s cs', none)
      | none =>
        match AddressTree.mergeScan s.mask_len new_subnet cs with
        | .error e => .error e
        | .ok cs' => .ok (.node s cs', none)
  else .ok (t, some new_subnet)

/-- first scan of `pushSpec`: look for the first child that recursively
accepts the incoming prefix; `none` means no child accepted it. -/
def AddressTree.acceptScan (new_subnet : Subnet) :
    List AddressTree → Option (Except String (List AddressTree))
  | [] => none
  | ch :: rest =>
    match AddressTree.pushSpec ch new_subnet with
    | .ok (ch', none) => some (.ok (ch' :: rest))
    | _ =>
      match AddressTree.acceptScan new_subnet rest with
      | some r =>
        some (match r with
              | .error e => .error e
              | .ok rest' => .ok (ch :: rest'))
      | none => none

/-- second scan of `pushSpec`: look for the first child admitting a
step-down merge with the incoming prefix; append a fresh leaf at the end
of the sibling list when none does. -/
def AddressTree.mergeScan (m : Nat) (new_subnet : Subnet) :
    List AddressTree → Except String (List AddressTree)
  | [] => .ok [AddressTree.of new_subnet]
  | ch :: rest =>
    match Subnet.common_of ch.subnet new_subnet (some (m + 1)) with
    | .error e => .error e
    | .ok (some inter) =>
      .ok (AddressTree.stepdown ch inter (AddressTree.of new_subnet) :: rest)
    | .ok none =>
      match AddressTree.mergeScan m new_subnet rest with
      | .error e => .error e
      | .ok rest' => .ok (ch :: rest')
end

/-- a well-formed subnet value: mask length within 32 bits, the cached mask
derived from the mask length, the address within the u32 range and in
canonical form (no stray bits below the mask). -/
def Valid (s : Subnet) : Prop :=
  s.mask_len ≤ 32 ∧ s.mask = maskOf s.mask_len ∧ s.bits < 2^32 ∧ s.bits &&& s.mask = s.bits

instance (s : Subnet) : Decidable (Valid s) := by unfold Valid; infer_instance

/-- structural invariant of trees built by `push` from a fresh root:

* every stored subnet is well formed;
* a mask-32 node has at most one child, carrying the identical subnet
  (the duplicate-address chain);
* the children of a node of mask length `m < 32` all lie strictly below it
  in its address range, childless children are exact addresses, and any two
  children already differ inside the top `m+1` bits (which makes the
  sibling lists pairwise disjoint). -/
inductive TreeInv : AddressTree → Prop where
  | leaf {s : Subnet} : Valid s → TreeInv (.leaf s)
  | node32 {p : Subnet} {c : AddressTree} :
      Valid p → p.mask_len = 32 → TreeInv c → c.subnet = p → TreeInv (.node p [c])
  | nodeLt {p : Subnet} {cs : List AddressTree} :
      Valid p → p.mask_len < 32 →
      (∀ ch ∈ cs, TreeInv ch) →
      (∀ ch ∈ cs, p.mask_len < ch.subnet.mask_len ∧
        ch.subnet.bits &&& maskOf p.mask_len = p.bits ∧
        (ch.isLeaf = true → ch.subnet.mask_len = 32)) →
      cs.Pairwise (fun a b =>
        a.subnet.bits &&& maskOf (p.mask_len + 1) ≠ b.subnet.bits &&& maskOf (p.mask_len + 1)) →
      TreeInv (.node p cs)

/-- trees reachable from a fresh root by a finite sequence of successful
pushes of /32 addresses. -/
inductive Reachable : AddressTree → Prop where
  | base : Reachable AddressTree.new
  | step {t t' : AddressTree} {s : Subnet} :
      Reachable t → Valid s → s.mask_len = 32 →
      AddressTree.push t s = .ok (t', none) → Reachable t'

theorem maskOf_testBit {n : Nat} (hn : n ≤ 32) (i : Nat) :
    (maskOf n).testBit i = decide (32 - n ≤ i ∧ i < 32) := by
  have h1 : maskOf n = (2^n - 1) <<< (32 - n) := by
    rw [Nat.shiftLeft_eq, maskOf, Nat.sub_mul, one_mul, ← pow_add]
    congr 2
    omega
  rw [h1, Nat.testBit_shiftLeft, Nat.testBit_two_pow_sub_one, ← Bool.decide_and,
    decide_eq_decide]
  omega

theorem maskOf_lt_two_pow (n : Nat) : maskOf n < 2^32 := by
  have : 0 < 2^(32 - n) := Nat.pos_pow_of_pos _ (by norm_num)
  have : (2:Nat)^32 > 0 := by norm_num
  unfold maskOf
  omega

theorem maskOf_zero : maskOf 0 = 0 := by simp [maskOf]

theorem maskOf_32 : maskOf 32 = 2^32 - 1 := by simp [maskOf]

theorem maskOf_land_maskOf {a b : Nat} (hab : a ≤ b) (hb : b ≤ 32) :
    maskOf b &&& maskOf a = maskOf a := by
  apply Nat.eq_of_testBit_eq
  intro i
  rw [Nat.testBit_land, maskOf_testBit hb, maskOf_testBit (le_trans hab hb),
    ← Bool.decide_and, decide_eq_decide]
  omega

theorem land_maskOf_absorb {a b : Nat} (x : Nat) (hab : a ≤ b) (hb : b ≤ 32) :
    (x &&& maskOf b) &&& maskOf a = x &&& maskOf a := by
  rw [Nat.land_assoc, maskOf_land_maskOf hab hb]

theorem agree_mono {x y a b : Nat} (h : x &&& maskOf b = y &&& maskOf b)
    (hab : a ≤ b) (hb : b ≤ 32) : x &&& maskOf a = y &&& maskOf a := by
  rw [← land_maskOf_absorb x hab hb, h, land_maskOf_absorb y hab hb]

theorem land_maskOf_32 {x : Nat} (hx : x < 2^32) : x &&& maskOf 32 = x := by
  apply Nat.eq_of_testBit_eq
  intro i
  rw [Nat.testBit_land, maskOf_testBit (le_refl 32)]
  rcases Nat.lt_or_ge i 32 with h | h
  · have : decide (32 - 32 ≤ i ∧ i < 32) = true := by simp; omega
    rw [this, Bool.and_true]
  · have hb : x.testBit i = false := by
      apply Nat.testBit_lt_two_pow
      calc x < 2^32 := hx
        _ ≤ 2^i := Nat.pow_le_pow_right (by norm_num) h
    have : decide (32 - 32 ≤ i ∧ i < 32) = false := by simp; omega
    rw [this, hb, Bool.false_and]

theorem shift_maskOf {n : Nat} (h1 : 1 ≤ n) (h2 : n ≤ 32) :
    ((2^32 - 1) <<< (32 - n)) % 2^32 = maskOf n := by
  apply Nat.eq_of_testBit_eq
  intro i
  rw [Nat.testBit_mod_two_pow, Nat.testBit_shiftLeft, Nat.testBit_two_pow_sub_one,
    maskOf_testBit h2, ← Bool.decide_and, ← Bool.decide_and, decide_eq_decide]
  omega

theorem maskOf_shift_step {n : Nat} (h : n + 1 ≤ 32) :
    (maskOf (n + 1) <<< 1) % 2^32 = maskOf n := by
  apply Nat.eq_of_testBit_eq
  intro i
  rw [Nat.testBit_mod_two_pow, Nat.testBit_shiftLeft, maskOf_testBit h,
    maskOf_testBit (by omega : n ≤ 32), ← Bool.decide_and, ← Bool.decide_and, decide_eq_decide]
  omega

theorem land_mask_canonical (x m : Nat) : (x &&& m) &&& m = x &&& m := by
  rw [Nat.land_assoc, Nat.and_self]

theorem commonLoop_spec (b1 b2 min_mask : Nat) :
    ∀ len, len ≤ 32 → min_mask ≤ len →
    (∃ K, Subnet.commonLoop b1 b2 min_mask len (maskOf len) =
        .ok (some { bits := b1 &&& maskOf K, mask_len := K, mask := maskOf K }) ∧
      min_mask ≤ K ∧ K ≤ len ∧ b1 &&& maskOf K = b2 &&& maskOf K ∧
      ∀ i, K < i → i ≤ len → b1 &&& maskOf i ≠ b2 &&& maskOf i)
    ∨ (Subnet.commonLoop b1 b2 min_mask len (maskOf len) = .ok none ∧
      ∀ i, min_mask ≤ i → i ≤ len → b1 &&& maskOf i ≠ b2 &&& maskOf i) := by
  intro len
  induction len with
  | zero =>
    intro _ hm
    left
    refine ⟨0, ?_, hm, le_refl _, ?_, ?_⟩
    · rw [Subnet.commonLoop]
      simp [maskOf_zero, Nat.le_zero.mp hm]
    · simp [maskOf_zero]
    · omega
  | succ n ih =>
    intro hlen hm
    rw [Subnet.commonLoop]
    simp only [hm, if_true]
    by_cases hagree : b1 &&& maskOf (n + 1) = b2 &&& maskOf (n + 1)
    · left
      refine ⟨n + 1, ?_, hm, le_refl _, hagree, by omega⟩
      simp [hagree]
    · have hbeq : (b1 &&& maskOf (n + 1) == b2 &&& maskOf (n + 1)) = false := by
        simp [hagree]
      simp only [hbeq, Bool.false_eq_true, if_false]
      rw [maskOf_shift_step hlen]
      by_cases hmn : min_mask ≤ n
      · rcases ih (by omega) hmn with ⟨K, heq, hK1, hK2, hK3, hK4⟩ | ⟨heq, hall⟩
        · left
          refine ⟨K, heq, hK1, by omega, hK3, ?_⟩
          intro i hi1 hi2
          rcases Nat.lt_or_ge i (n + 1) with h' | h'
          · exact hK4 i hi1 (by omega)
          · have : i = n + 1 := by omega
            rw [this]
            exact hagree
        · right
          refine ⟨heq, ?_⟩
          intro i hi1 hi2
          rcases Nat.lt_or_ge i (n + 1) with h' | h'
          · exact hall i hi1 (by omega)
          · have : i = n + 1 := by omega
            rw [this]
            exact hagree
      · right
        constructor
        · rw [Subnet.commonLoop.eq_def]
          simp [hmn]
        · intro i hi1 hi2
          have : i = n + 1 := by omega
          rw [this]
          exact hagree

theorem common_of_spec (s1 s2 : Subnet) (m : Nat) (h1 : Valid s1) (_h2 : Valid s2)
    (hmin1 : 1 ≤ min s1.mask_len s2.mask_len) (hm : m ≤ min s1.mask_len s2.mask_len) :
    (∃ K, Subnet.common_of s1 s2 (some m) =
        .ok (some { bits := s1.bits &&& maskOf K, mask_len := K, mask := maskOf K }) ∧
      m ≤ K ∧ K ≤ min s1.mask_len s2.mask_len ∧
      s1.bits &&& maskOf K = s2.bits &&& maskOf K ∧
      ∀ i, K < i → i ≤ min s1.mask_len s2.mask_len →
        s1.bits &&& maskOf i ≠ s2.bits &&& maskOf i)
    ∨ (Subnet.common_of s1 s2 (some m) = .ok none ∧
      ∀ i, m ≤ i → i ≤ min s1.mask_len s2.mask_len →
        s1.bits &&& maskOf i ≠ s2.bits &&& maskOf i) := by
  have hc32 : min s1.mask_len s2.mask_len ≤ 32 := le_trans (min_le_left _ _) h1.1
  have hunfold : Subnet.common_of s1 s2 (some m) =
      Subnet.commonLoop s1.bits s2.bits m (min s1.mask_len s2.mask_len)
        (maskOf (min s1.mask_len s2.mask_len)) := by
    rw [Subnet.common_of]
    have e1 : ¬ m > min s1.mask_len s2.mask_len := by omega
    have e2 : ¬ 32 < min s1.mask_len s2.mask_len := by omega
    have e3 : (32 - min s1.mask_len s2.mask_len == 32) = false := by
      simp
      omega
    simp only [e1, if_false, e2, e3, Bool.false_eq_true]
    rw [shift_maskOf hmin1 hc32]
  rw [hunfold]
  exact commonLoop_spec s1.bits s2.bits m _ hc32 hm

theorem land_zero_eq (x : Nat) : x &&& 0 = 0 := by
  apply Nat.eq_of_testBit_eq
  intro i
  simp [Nat.testBit_land]

theorem common_of_none_iff {s1 s2 : Subnet} {m : Nat} (h1 : Valid s1) (h2 : Valid s2)
    (hmin1 : 1 ≤ min s1.mask_len s2.mask_len) (hm : m ≤ min s1.mask_len s2.mask_len) :
    Subnet.common_of s1 s2 (some m) = .ok none ↔
      s1.bits &&& maskOf m ≠ s2.bits &&& maskOf m := by
  rcases common_of_spec s1 s2 m h1 h2 hmin1 hm with ⟨K, heq, hK1, hK2, hK3, _⟩ | ⟨heq, hall⟩
  · constructor
    · intro h
      rw [h] at heq
      exact absurd heq (by simp)
    · intro h
      exact absurd (agree_mono hK3 hK1 (le_trans hK2 (le_trans (min_le_left _ _) h1.1))) h
  · constructor
    · intro _
      exact hall m (le_refl _) hm
    · intro _
      exact heq

theorem common_of_some_spec {s1 s2 S : Subnet} {m : Nat} (h1 : Valid s1) (h2 : Valid s2)
    (hmin1 : 1 ≤ min s1.mask_len s2.mask_len) (hm : m ≤ min s1.mask_len s2.mask_len)
    (heq : Subnet.common_of s1 s2 (some m) = .ok (some S)) :
    S.bits = s1.bits &&& maskOf S.mask_len ∧ S.mask = maskOf S.mask_len ∧
    m ≤ S.mask_len ∧ S.mask_len ≤ min s1.mask_len s2.mask_len ∧
    s1.bits &&& maskOf S.mask_len = s2.bits &&& maskOf S.mask_len ∧
    (∀ i, S.mask_len < i → i ≤ min s1.mask_len s2.mask_len →
      s1.bits &&& maskOf i ≠ s2.bits &&& maskOf i) ∧ Valid S := by
  rcases common_of_spec s1 s2 m h1 h2 hmin1 hm with ⟨K, heq', hK1, hK2, hK3, hK4⟩ | ⟨heq', _⟩
  · rw [heq'] at heq
    have hS : S = { bits := s1.bits &&& maskOf K, mask_len := K, mask := maskOf K } :=
      (Option.some.inj (Except.ok.inj heq)).symm
    rw [hS]
    refine ⟨rfl, rfl, hK1, hK2, hK3, hK4, ?_, rfl, ?_, ?_⟩
    · exact le_trans hK2 (le_trans (min_le_left _ _) h1.1)
    · exact lt_of_le_of_lt Nat.and_le_right (maskOf_lt_two_pow K)
    · exact land_mask_canonical _ _
  · rw [heq'] at heq
    exact absurd heq (by simp)

theorem contains_iff {p q : Subnet} (hp : Valid p) :
    p.contains q = true ↔ p.mask_len ≤ q.mask_len ∧ q.bits &&& maskOf p.mask_len = p.bits := by
  rw [Subnet.contains]
  rcases Nat.lt_or_ge q.mask_len p.mask_len with h | h
  · simp only [h, if_true, gt_iff_lt]
    simp
    omega
  · have h2 : ¬ p.mask_len > q.mask_len := by omega
    simp [h2, hp.2.1, h]

theorem root_contains (s : Subnet) : Subnet.root.contains s = true := by
  rw [Subnet.contains]
  simp [Subnet.root, land_zero_eq]

theorem contains_refl {s : Subnet} (h : Valid s) : s.contains s = true := by
  rw [contains_iff h]
  exact ⟨le_refl _, by rw [← h.2.1]; exact h.2.2.2⟩

theorem eq_of_contains_32 {p L : Subnet} (hp : Valid p) (hL : Valid L)
    (hp32 : p.mask_len = 32) (hL32 : L.mask_len = 32) (hc : p.contains L = true) : L = p := by
  rcases (contains_iff hp).mp hc with ⟨_, hbits⟩
  have hb : L.bits = p.bits := by
    rw [hp32] at hbits
    rw [← land_maskOf_32 hL.2.2.1, hbits]
  cases L with
  | mk lb ll lm =>
    cases p with
    | mk pb pl pm =>
      simp only [Subnet.mk.injEq]
      simp only at hb hp32 hL32
      refine ⟨hb, by omega, ?_⟩
      have h1 := hL.2.1
      have h2 := hp.2.1
      simp only at h1 h2
      rw [h1, h2, hL32, hp32]

theorem push_leaf_eq (s L : Subnet) :
    AddressTree.push (.leaf s) L =
      if s.contains L then .ok (.node s [AddressTree.of L], none)
      else .ok (.leaf s, some L) := by
  rw [AddressTree.push.eq_def]
  rfl

theorem push_node_eq (s : Subnet) (cs : List AddressTree) (L : Subnet) :
    AddressTree.push (.node s cs) L =
      if s.contains L then
        match AddressTree.pushLoop s.mask_len L cs with
        | .error e => .error e
        | .ok cs' => .ok (.node s cs', none)
      else .ok (.node s cs, some L) := by
  rw [AddressTree.push.eq_def]
  rfl

theorem pushLoop_nil_eq (m : Nat) (L : Subnet) :
    AddressTree.pushLoop m L [] = .ok [AddressTree.of L] := by
  rw [AddressTree.pushLoop.eq_def]

theorem pushLoop_cons_eq (m : Nat) (L : Subnet) (ch : AddressTree) (rest : List AddressTree) :
    AddressTree.pushLoop m L (ch :: rest) =
      match AddressTree.push ch L with
      | .error e => .error e
      | .ok (ch', none) => .ok (ch' :: rest)
      | .ok (ch', some rejected) =>
        match Subnet.common_of ch'.subnet rejected (some (m + 1)) with
        | .error e => .error e
        | .ok (some inter) =>
          .ok (AddressTree.stepdown ch' inter (AddressTree.of rejected) :: rest)
        | .ok none =>
          match AddressTree.pushLoop m rejected rest with
          | .error e => .error e
          | .ok rest' => .ok (ch' :: rest') := by
  rw [AddressTree.pushLoop.eq_def]

theorem push_not_contains {t : AddressTree} {L : Subnet} (h : t.subnet.contains L = false) :
    AddressTree.push t L = .ok (t, some L) := by
  cases t with
  | leaf s =>
    rw [push_leaf_eq]
    simp only [AddressTree.subnet] at h
    simp [h]
  | node s cs =>
    rw [push_node_eq]
    simp only [AddressTree.subnet] at h
    simp [h]

theorem push_err_eq {t t' : AddressTree} {L L' : Subnet}
    (h : AddressTree.push t L = .ok (t', some L')) :
    t' = t ∧ L' = L ∧ t.subnet.contains L = false := by
  cases t with
  | leaf s =>
    rw [push_leaf_eq] at h
    by_cases hc : Subnet.contains s L
    · rw [if_pos hc] at h
      simp at h
    · rw [if_neg hc] at h
      simp only [Except.ok.injEq, Prod.mk.injEq, Option.some.injEq] at h
      exact ⟨h.1.symm, h.2.symm, by simpa [AddressTree.subnet] using hc⟩
  | node s cs =>
    rw [push_node_eq] at h
    by_cases hc : Subnet.contains s L
    · rw [if_pos hc] at h
      cases he : AddressTree.pushLoop s.mask_len L cs with
      | error e => rw [he] at h; simp at h
      | ok cs' => rw [he] at h; simp at h
    · rw [if_neg hc] at h
      simp only [Except.ok.injEq, Prod.mk.injEq, Option.some.injEq] at h
      exact ⟨h.1.symm, h.2.symm, by simpa [AddressTree.subnet] using hc⟩

theorem push_ok_shape {t t' : AddressTree} {L : Subnet}
    (h : AddressTree.push t L = .ok (t', none)) :
    t'.subnet = t.subnet ∧ t'.isLeaf = false ∧ t.subnet.contains L = true := by
  cases t with
  | leaf s =>
    rw [push_leaf_eq] at h
    by_cases hc : Subnet.contains s L
    · rw [if_pos hc] at h
      simp only [Except.ok.injEq, Prod.mk.injEq] at h
      rw [← h.1]
      exact ⟨rfl, rfl, hc⟩
    · rw [if_neg hc] at h
      simp at h
  | node s cs =>
    rw [push_node_eq] at h
    by_cases hc : Subnet.contains s L
    · rw [if_pos hc] at h
      cases he : AddressTree.pushLoop s.mask_len L cs with
      | error e => rw [he] at h; simp at h
      | ok cs' =>
        rw [he] at h
        simp only [Except.ok.injEq, Prod.mk.injEq] at h
        rw [← h.1]
        exact ⟨rfl, rfl, hc⟩
    · rw [if_neg hc] at h
      simp at h

theorem AddressTree.strongInduction {P : AddressTree → Prop}
    (hleaf : ∀ s, P (.leaf s))
    (hnode : ∀ s cs, (∀ ch ∈ cs, P ch) → P (.node s cs)) : ∀ t, P t
  | .leaf s => hleaf s
  | .node s cs => hnode s cs (fun ch hm =>
      have : sizeOf ch < sizeOf (AddressTree.node s cs) := by
        have h1 := List.sizeOf_lt_of_mem hm
        simp only [AddressTree.node.sizeOf_spec]
        omega
      AddressTree.strongInduction hleaf hnode ch)

theorem inv_valid {t : AddressTree} (h : TreeInv t) : Valid t.subnet := by
  cases h with
  | leaf hv => exact hv
  | node32 hv _ _ _ => exact hv
  | nodeLt hv _ _ _ _ => exact hv

theorem stepdown_eq (t : AddressTree) (s : Subnet) (nb : AddressTree) :
    AddressTree.stepdown t s nb = .node s [t, nb] := by
  cases t <;> rfl

theorem valid_root : Valid Subnet.root := by
  refine ⟨by norm_num [Subnet.root], ?_, by norm_num [Subnet.root], ?_⟩
  · rw [Subnet.root, maskOf_zero]
  · rw [Subnet.root]
    exact land_zero_eq 0

/-- conditions a parent node of mask length `m` and masked bits `pb`
imposes on each member of its children list. -/
def childOk (m pb : Nat) (ch : AddressTree) : Prop :=
  TreeInv ch ∧ m < ch.subnet.mask_len ∧ ch.subnet.bits &&& maskOf m = pb ∧
    (ch.isLeaf = true → ch.subnet.mask_len = 32)

/-- two siblings under a node of mask length `m` differ somewhere in the
top `m+1` bits. -/
def sibDiscr (m : Nat) (a b : AddressTree) : Prop :=
  a.subnet.bits &&& maskOf (m + 1) ≠ b.subnet.bits &&& maskOf (m + 1)

theorem pushLoop_sound {m pb : Nat} {L : Subnet}
    (hm : m < 32) (hL : Valid L) (hL32 : L.mask_len = 32)
    (hLb : L.bits &&& maskOf m = pb) :
    ∀ cs : List AddressTree,
    (∀ ch ∈ cs, childOk m pb ch) →
    cs.Pairwise (sibDiscr m) →
    (∀ ch ∈ cs, TreeInv ch → ch.subnet.contains L = true →
      ∃ ch', AddressTree.push ch L = .ok (ch', none) ∧ TreeInv ch' ∧
        ch'.subnet = ch.subnet ∧ ch'.isLeaf = false) →
    ∃ cs', AddressTree.pushLoop m L cs = .ok cs' ∧
      (∀ ch' ∈ cs', childOk m pb ch') ∧
      cs'.Pairwise (sibDiscr m) ∧
      (∀ ch' ∈ cs',
        (∃ ch ∈ cs, ch'.subnet.bits &&& maskOf (m+1) = ch.subnet.bits &&& maskOf (m+1)) ∨
        ch'.subnet.bits &&& maskOf (m+1) = L.bits &&& maskOf (m+1)) := by
  intro cs
  induction cs with
  | nil =>
    intro _ _ _
    refine ⟨[AddressTree.of L], pushLoop_nil_eq m L, ?_, ?_, ?_⟩
    · intro ch' hch'
      rcases List.mem_singleton.mp hch' with rfl
      refine ⟨TreeInv.leaf hL, ?_, hLb, fun _ => hL32⟩
      simp [AddressTree.of, AddressTree.subnet, hL32]
      omega
    · exact List.pairwise_singleton _ _
    · intro ch' hch'
      rcases List.mem_singleton.mp hch' with rfl
      right
      rfl
  | cons ch rest ih =>
    intro hmem hpw hih
    have hchOk := hmem ch (List.mem_cons_self ch rest)
    obtain ⟨hInv, hlen, hagree, hleaf32⟩ := hchOk
    rw [List.pairwise_cons] at hpw
    obtain ⟨hpw_head, hpw_tail⟩ := hpw
    by_cases hc : ch.subnet.contains L = true
    · -- first child recursively accepts the incoming subnet
      obtain ⟨ch', heq, hInv', hsub', hnl'⟩ :=
        hih ch (List.mem_cons_self ch rest) hInv hc
      refine ⟨ch' :: rest, ?_, ?_, ?_, ?_⟩
      · rw [pushLoop_cons_eq, heq]
      · intro x hx
        rcases List.mem_cons.mp hx with rfl | hx'
        · exact ⟨hInv', by rw [hsub']; exact hlen, by rw [hsub']; exact hagree,
            fun hlf => absurd hlf (by rw [hnl']; simp)⟩
        · exact hmem x (List.mem_cons_of_mem _ hx')
      · rw [List.pairwise_cons]
        refine ⟨?_, hpw_tail⟩
        intro b hb
        unfold sibDiscr
        rw [hsub']
        exact hpw_head b hb
      · intro x hx
        rcases List.mem_cons.mp hx with rfl | hx'
        · left
          exact ⟨ch, List.mem_cons_self ch rest, by rw [hsub']⟩
        · left
          exact ⟨x, List.mem_cons_of_mem _ hx', rfl⟩
    · -- first child rejects: the Err branch with the merge attempt
      have hcf : ch.subnet.contains L = false := by
        cases hcv : ch.subnet.contains L
        · rfl
        · exact absurd hcv hc
      have hpushf := push_not_contains hcf
      have hVch : Valid ch.subnet := inv_valid hInv
      have hmin1 : 1 ≤ min ch.subnet.mask_len L.mask_len := by
        rw [hL32]
        omega
      have hm1 : m + 1 ≤ min ch.subnet.mask_len L.mask_len := by
        rw [hL32]
        omega
      cases hco : Subnet.common_of ch.subnet L (some (m + 1)) with
      | error e =>
        exfalso
        rcases common_of_spec ch.subnet L (m+1) hVch hL hmin1 hm1 with
          ⟨K, heq', _⟩ | ⟨heq', _⟩
        · rw [heq'] at hco
          exact absurd hco (by simp)
        · rw [heq'] at hco
          exact absurd hco (by simp)
      | ok res =>
        cases res with
        | some S =>
          -- step-down merge at this child
          obtain ⟨hSb, hSm, hSl1, hSl2, hSagree, hSmax, hSV⟩ :=
            common_of_some_spec hVch hL hmin1 hm1 hco
          have hSltch : S.mask_len < ch.subnet.mask_len := by
            rcases Nat.lt_or_ge S.mask_len ch.subnet.mask_len with h' | h'
            · exact h'
            · exfalso
              have hSeq : S.mask_len = ch.subnet.mask_len := by
                have := min_le_left ch.subnet.mask_len L.mask_len
                omega
              have : L.bits &&& maskOf ch.subnet.mask_len = ch.subnet.bits := by
                rw [← hSeq]
                rw [← hSagree, hSeq]
                rw [← hVch.2.1]
                exact hVch.2.2.2
              have : ch.subnet.contains L = true := by
                rw [contains_iff hVch]
                exact ⟨by rw [hL32]; exact hVch.1, this⟩
              exact hc this
          have hSlt32 : S.mask_len < 32 := lt_of_lt_of_le hSltch hVch.1
          refine ⟨AddressTree.stepdown ch S (AddressTree.of L) :: rest, ?_, ?_, ?_, ?_⟩
          · simp only [pushLoop_cons_eq, hpushf, hco]
          · intro x hx
            rcases List.mem_cons.mp hx with rfl | hx'
            · rw [stepdown_eq]
              have hLS : L.bits &&& maskOf S.mask_len = S.bits := by
                rw [hSb]
                exact hSagree.symm
              refine ⟨?_, ?_, ?_, ?_⟩
              · -- invariant of the new intermediate node
                refine TreeInv.nodeLt hSV hSlt32 ?_ ?_ ?_
                · intro x hx
                  rcases List.mem_cons.mp hx with rfl | hx'
                  · exact hInv
                  · rcases List.mem_singleton.mp hx' with rfl
                    exact TreeInv.leaf hL
                · intro x hx
                  rcases List.mem_cons.mp hx with rfl | hx'
                  · exact ⟨hSltch, by rw [← hSb], hleaf32⟩
                  · rcases List.mem_singleton.mp hx' with rfl
                    refine ⟨?_, ?_, ?_⟩
                    · simp only [AddressTree.of, AddressTree.subnet]
                      rw [hL32]
                      exact hSlt32
                    · simp only [AddressTree.of, AddressTree.subnet]
                      exact hLS
                    · intro _
                      simp only [AddressTree.of, AddressTree.subnet]
                      exact hL32
                · rw [List.pairwise_cons]
                  refine ⟨?_, List.pairwise_singleton _ _⟩
                  intro b hb
                  rcases List.mem_singleton.mp hb with rfl
                  simp only [AddressTree.of, AddressTree.subnet]
                  apply hSmax
                  · omega
                  · omega
              · simp only [AddressTree.subnet]
                omega
              · simp only [AddressTree.subnet]
                rw [hSb, land_maskOf_absorb _ (by omega)
                  (le_trans hSl2 (le_trans (min_le_left _ _) hVch.1))]
                exact hagree
              · intro hlf
                simp only [AddressTree.isLeaf] at hlf
                exact absurd hlf (by simp)
            · exact hmem x (List.mem_cons_of_mem _ hx')
          · rw [List.pairwise_cons]
            refine ⟨?_, hpw_tail⟩
            intro b hb
            unfold sibDiscr
            rw [stepdown_eq]
            simp only [AddressTree.subnet]
            rw [hSb, land_maskOf_absorb _ (by omega)
              (le_trans hSl2 (le_trans (min_le_left _ _) hVch.1))]
            exact hpw_head b hb
          · intro x hx
            rcases List.mem_cons.mp hx with rfl | hx'
            · left
              refine ⟨ch, List.mem_cons_self ch rest, ?_⟩
              rw [stepdown_eq]
              simp only [AddressTree.subnet]
              rw [hSb, land_maskOf_absorb _ (by omega)
                (le_trans hSl2 (le_trans (min_le_left _ _) hVch.1))]
              rfl
            · left
              exact ⟨x, List.mem_cons_of_mem _ hx', rfl⟩
        | none =>
          -- no merge here: skip to the remaining siblings
          have hdis : ch.subnet.bits &&& maskOf (m+1) ≠ L.bits &&& maskOf (m+1) :=
            (common_of_none_iff hVch hL hmin1 hm1).mp hco
          obtain ⟨rest', heqr, hmem', hpw', hmap'⟩ := ih
            (fun x hx => hmem x (List.mem_cons_of_mem _ hx)) hpw_tail
            (fun x hx => hih x (List.mem_cons_of_mem _ hx))
          refine ⟨ch :: rest', ?_, ?_, ?_, ?_⟩
          · simp only [pushLoop_cons_eq, hpushf, hco, heqr]
          · intro x hx
            rcases List.mem_cons.mp hx with rfl | hx'
            · exact ⟨hInv, hlen, hagree, hleaf32⟩
            · exact hmem' x hx'
          · rw [List.pairwise_cons]
            refine ⟨?_, hpw'⟩
            intro b hb
            rcases hmap' b hb with ⟨c, hcmem, hceq⟩ | hLeq
            · unfold sibDiscr
              rw [hceq]
              exact hpw_head c hcmem
            · unfold sibDiscr
              rw [hLeq]
              exact hdis
          · intro x hx
            rcases List.mem_cons.mp hx with rfl | hx'
            · left
              exact ⟨_, List.mem_cons_self _ _, rfl⟩
            · rcases hmap' x hx' with ⟨c, hcmem, hceq⟩ | hLeq
              · left
                exact ⟨c, List.mem_cons_of_mem _ hcmem, hceq⟩
              · right
                exact hLeq

theorem push_sound : ∀ t, TreeInv t → ∀ L, Valid L → L.mask_len = 32 →
    t.subnet.contains L = true →
    ∃ t', AddressTree.push t L = .ok (t', none) ∧ TreeInv t' ∧
      t'.subnet = t.subnet ∧ t'.isLeaf = false := by
  intro t
  induction t using AddressTree.strongInduction with
  | hleaf s =>
    intro hInv L hL hL32 hc
    have hV : Valid s := by cases hInv with | leaf hv => exact hv
    simp only [AddressTree.subnet] at hc
    refine ⟨.node s [AddressTree.of L], ?_, ?_, rfl, rfl⟩
    · rw [push_leaf_eq, if_pos hc]
    · by_cases h32 : s.mask_len = 32
      · have hLs : L = s := eq_of_contains_32 hV hL h32 hL32 hc
        exact TreeInv.node32 hV h32 (TreeInv.leaf hL) (by simp [AddressTree.of, AddressTree.subnet, hLs])
      · have hlt : s.mask_len < 32 := by
          have := hV.1
          omega
        refine TreeInv.nodeLt hV hlt ?_ ?_ ?_
        · intro ch hch
          rcases List.mem_singleton.mp hch with rfl
          exact TreeInv.leaf hL
        · intro ch hch
          rcases List.mem_singleton.mp hch with rfl
          refine ⟨?_, ?_, ?_⟩
          · simp only [AddressTree.of, AddressTree.subnet]
            omega
          · simp only [AddressTree.of, AddressTree.subnet]
            exact ((contains_iff hV).mp hc).2
          · intro _
            simp only [AddressTree.of, AddressTree.subnet]
            exact hL32
        · exact List.pairwise_singleton _ _
  | hnode s cs ih =>
    intro hInv L hL hL32 hc
    simp only [AddressTree.subnet] at hc
    cases hInv with
    | node32 hv h32 hcInv hcsub =>
      have hLs : L = s := eq_of_contains_32 hv hL h32 hL32 hc
      rename_i c
      have hcL : c.subnet.contains L = true := by
        rw [hcsub, hLs]
        exact contains_refl hv
      obtain ⟨c', heq, hInv', hsub', _⟩ :=
        ih c (List.mem_singleton.mpr rfl) hcInv L hL hL32 hcL
      refine ⟨.node s [c'], ?_, ?_, rfl, rfl⟩
      · rw [push_node_eq, if_pos hc]
        simp only [pushLoop_cons_eq, heq]
      · exact TreeInv.node32 hv h32 hInv' (hsub'.trans hcsub)
    | nodeLt hv hlt hmembers hconds hpw =>
      have hLb : L.bits &&& maskOf s.mask_len = s.bits := ((contains_iff hv).mp hc).2
      obtain ⟨cs', heq, hmem', hpw', _⟩ :=
        pushLoop_sound hlt hL hL32 hLb cs
          (fun ch hch => ⟨hmembers ch hch, (hconds ch hch).1, (hconds ch hch).2.1,
            (hconds ch hch).2.2⟩)
          hpw
          (fun ch hch hInvc hcc => ih ch hch hInvc L hL hL32 hcc)
      refine ⟨.node s cs', ?_, ?_, rfl, rfl⟩
      · rw [push_node_eq, if_pos hc]
        simp only [heq]
      · refine TreeInv.nodeLt hv hlt ?_ ?_ ?_
        · exact fun ch hch => (hmem' ch hch).1
        · exact fun ch hch => ⟨(hmem' ch hch).2.1, (hmem' ch hch).2.2.1, (hmem' ch hch).2.2.2⟩
        · exact hpw'

theorem reachable_inv {t : AddressTree} (h : Reachable t) :
    TreeInv t ∧ t.subnet = Subnet.root := by
  induction h with
  | base => exact ⟨TreeInv.leaf valid_root, rfl⟩
  | @step t0 t' s _ hV h32 hpush ih =>
    obtain ⟨hInv, hsub⟩ := ih
    have hc : t0.subnet.contains s = true := by
      rw [hsub]
      exact root_contains s
    obtain ⟨t'', heq, hInv', hsub', _⟩ := push_sound t0 hInv s hV h32 hc
    rw [hpush] at heq
    have ht : t' = t'' := congrArg Prod.fst (Except.ok.inj heq)
    rw [ht]
    exact ⟨hInv', hsub'.trans hsub⟩

theorem allNodes_leaf_eq (s : Subnet) : AddressTree.allNodes (.leaf s) = [.leaf s] := by
  rw [AddressTree.allNodes.eq_def]

theorem allNodes_node_eq (s : Subnet) (cs : List AddressTree) :
    AddressTree.allNodes (.node s cs) = .node s cs :: AddressTree.allNodesList cs := by
  rw [AddressTree.allNodes.eq_def]

theorem allNodesList_nil_eq : AddressTree.allNodesList [] = [] := by
  rw [AddressTree.allNodesList.eq_def]

theorem allNodesList_cons_eq (ch : AddressTree) (rest : List AddressTree) :
    AddressTree.allNodesList (ch :: rest) =
      AddressTree.allNodes ch ++ AddressTree.allNodesList rest := by
  rw [AddressTree.allNodesList.eq_def]

theorem mem_allNodesList {x : AddressTree} : ∀ {l : List AddressTree},
    x ∈ AddressTree.allNodesList l ↔ ∃ ch ∈ l, x ∈ AddressTree.allNodes ch := by
  intro l
  induction l with
  | nil => simp [allNodesList_nil_eq]
  | cons ch rest ih => simp [allNodesList_cons_eq, ih, List.mem_append]

theorem inv_children {s : Subnet} {cs : List AddressTree} (h : TreeInv (.node s cs)) :
    ∀ ch ∈ cs, TreeInv ch := by
  cases h with
  | node32 _ _ hcInv _ =>
    intro ch hch
    rcases List.mem_singleton.mp hch with rfl
    exact hcInv
  | nodeLt _ _ hmembers _ _ => exact hmembers

theorem inv_allNodes : ∀ t, TreeInv t → ∀ x ∈ t.allNodes, TreeInv x := by
  intro t
  induction t using AddressTree.strongInduction with
  | hleaf s =>
    intro h x hx
    rw [allNodes_leaf_eq] at hx
    rcases List.mem_singleton.mp hx with rfl
    exact h
  | hnode s cs ih =>
    intro h x hx
    rw [allNodes_node_eq] at hx
    rcases List.mem_cons.mp hx with rfl | hx'
    · exact h
    · rcases mem_allNodesList.mp hx' with ⟨ch, hch, hxch⟩
      exact ih ch hch (inv_children h ch hch) x hxch

theorem contained_masked_eq {p : Subnet} {m : Nat} (hp : Valid p) (hmp : m + 1 ≤ p.mask_len)
    {x : Nat} (hx : x &&& maskOf p.mask_len = p.bits) :
    x &&& maskOf (m + 1) = p.bits &&& maskOf (m + 1) := by
  rw [← hx, land_maskOf_absorb _ hmp hp.1]

/-- from a well-formed node, any two (distinct positions of) children have
non-overlapping prefixes. -/
theorem inv_siblings_disjoint {p : Subnet} {cs : List AddressTree}
    (h : TreeInv (.node p cs)) :
    cs.Pairwise (fun a b =>
      a.subnet.contains b.subnet = false ∧ b.subnet.contains a.subnet = false ∧
      ∀ x : Nat, ¬(a.subnet.contains { bits := x, mask_len := 32, mask := maskOf 32 } = true ∧
                   b.subnet.contains { bits := x, mask_len := 32, mask := maskOf 32 } = true)) := by
  cases h with
  | node32 _ _ _ _ => exact List.pairwise_singleton _ _
  | nodeLt hv hlt hmembers hconds hpw =>
    refine hpw.imp_of_mem ?_
    intro a b ha hb hd
    have hVa : Valid a.subnet := inv_valid (hmembers a ha)
    have hVb : Valid b.subnet := inv_valid (hmembers b hb)
    have hla : p.mask_len + 1 ≤ a.subnet.mask_len := (hconds a ha).1
    have hlb : p.mask_len + 1 ≤ b.subnet.mask_len := (hconds b hb).1
    refine ⟨?_, ?_, ?_⟩
    · cases hcv : a.subnet.contains b.subnet
      · rfl
      · exfalso
        rcases (contains_iff hVa).mp hcv with ⟨_, hbits⟩
        exact hd (contained_masked_eq hVa hla hbits).symm
    · cases hcv : b.subnet.contains a.subnet
      · rfl
      · exfalso
        rcases (contains_iff hVb).mp hcv with ⟨_, hbits⟩
        exact hd (contained_masked_eq hVb hlb hbits)
    · rintro x ⟨hxa, hxb⟩
      rcases (contains_iff hVa).mp hxa with ⟨_, hba⟩
      rcases (contains_iff hVb).mp hxb with ⟨_, hbb⟩
      simp only at hba hbb
      exact hd ((contained_masked_eq hVa hla hba).symm.trans (contained_masked_eq hVb hlb hbb))

theorem get_leafs_leaf_eq (s : Subnet) : AddressTree.get_leafs (.leaf s) = [] := by
  rw [AddressTree.get_leafs.eq_def]

theorem get_leafs_node_eq (s : Subnet) (cs : List AddressTree) :
    AddressTree.get_leafs (.node s cs) = AddressTree.get_leafsList cs := by
  rw [AddressTree.get_leafs.eq_def]

/-- the per-child contribution of the `get_leafs` loop. -/
def leafContrib (ch : AddressTree) : List AddressTree :=
  match ch with
  | .leaf s => [.leaf s]
  | .node s cs => AddressTree.get_leafs (.node s cs)

theorem get_leafsList_nil_eq : AddressTree.get_leafsList [] = [] := by
  rw [AddressTree.get_leafsList.eq_def]

theorem get_leafsList_cons_eq (ch : AddressTree) (rest : List AddressTree) :
    AddressTree.get_leafsList (ch :: rest) =
      leafContrib ch ++ AddressTree.get_leafsList rest := by
  rw [AddressTree.get_leafsList.eq_def]
  cases ch <;> rfl

theorem leafContrib_not_leaf {ch : AddressTree} (h : ch.isLeaf = false) :
    leafContrib ch = AddressTree.get_leafs ch := by
  cases ch with
  | leaf s => simp [AddressTree.isLeaf] at h
  | node s cs => rfl

theorem push_node_ok {s : Subnet} {cs : List AddressTree} {t' : AddressTree} {L : Subnet}
    (h : AddressTree.push (.node s cs) L = .ok (t', none)) :
    ∃ cs', AddressTree.pushLoop s.mask_len L cs = .ok cs' ∧ t' = .node s cs' := by
  rw [push_node_eq] at h
  by_cases hc : Subnet.contains s L
  · rw [if_pos hc] at h
    cases he : AddressTree.pushLoop s.mask_len L cs with
    | error e => rw [he] at h; simp at h
    | ok cs' =>
      rw [he] at h
      simp only [Except.ok.injEq, Prod.mk.injEq] at h
      exact ⟨cs', rfl, h.1.symm⟩
  · rw [if_neg hc] at h
    simp at h

theorem pushLoop_leafs {m pb : Nat} {L : Subnet}
    (hL : Valid L) (hL32 : L.mask_len = 32) :
    ∀ cs : List AddressTree,
    (∀ ch ∈ cs, childOk m pb ch) →
    (∀ ch ∈ cs, TreeInv ch → ch.subnet.contains L = true →
      L ∉ (AddressTree.get_leafs ch).map AddressTree.subnet →
      ∀ ch', AddressTree.push ch L = .ok (ch', none) →
      ((AddressTree.get_leafs ch').map AddressTree.subnet).Perm
        (L :: (AddressTree.get_leafs ch).map AddressTree.subnet)) →
    L ∉ (AddressTree.get_leafsList cs).map AddressTree.subnet →
    ∀ cs', AddressTree.pushLoop m L cs = .ok cs' →
    ((AddressTree.get_leafsList cs').map AddressTree.subnet).Perm
      (L :: (AddressTree.get_leafsList cs).map AddressTree.subnet) := by
  intro cs
  induction cs with
  | nil =>
    intro _ _ _ cs' heq
    rw [pushLoop_nil_eq] at heq
    have : cs' = [AddressTree.of L] := (Except.ok.inj heq).symm
    rw [this, get_leafsList_nil_eq, get_leafsList_cons_eq, get_leafsList_nil_eq]
    simp [leafContrib, AddressTree.of, AddressTree.subnet]
  | cons ch rest ih =>
    intro hmem hih hfresh cs' heq
    have hchOk := hmem ch (List.mem_cons_self ch rest)
    obtain ⟨hInv, hlen, hagree, hleaf32⟩ := hchOk
    rw [get_leafsList_cons_eq, List.map_append] at hfresh
    rw [pushLoop_cons_eq] at heq
    cases hp : AddressTree.push ch L with
    | error e => rw [hp] at heq; simp at heq
    | ok r =>
      obtain ⟨ch', ro⟩ := r
      cases ro with
      | none =>
        -- delegated into this child
        rw [hp] at heq
        simp only [Except.ok.injEq] at heq
        obtain ⟨hsub', hnl', hcc⟩ := push_ok_shape hp
        cases hchl : ch.isLeaf with
        | true =>
          exfalso
          cases ch with
          | node s0 cs0 => simp [AddressTree.isLeaf] at hchl
          | leaf s0 =>
            have hVs0 : Valid s0 := by cases hInv with | leaf hv => exact hv
            have h32 : s0.mask_len = 32 := by
              apply hleaf32
              rfl
            have : L = s0 := by
              apply eq_of_contains_32 hVs0 hL h32 hL32
              simpa [AddressTree.subnet] using hcc
            apply hfresh
            apply List.mem_append.mpr
            left
            simp [leafContrib, AddressTree.subnet, this]
        | false =>
          have hfr : L ∉ (AddressTree.get_leafs ch).map AddressTree.subnet := by
            intro hmemL
            apply hfresh
            apply List.mem_append.mpr
            left
            rw [leafContrib_not_leaf hchl]
            exact hmemL
          have hperm := hih ch (List.mem_cons_self ch rest) hInv hcc hfr ch' hp
          rw [← heq, get_leafsList_cons_eq, get_leafsList_cons_eq,
            leafContrib_not_leaf hchl, leafContrib_not_leaf hnl', List.map_append,
            List.map_append]
          exact hperm.append_right _
      | some rejected =>
        obtain ⟨hce, hre, hcf⟩ := push_err_eq hp
        rw [hp] at heq
        simp only at heq
        rw [hce, hre] at heq
        cases hco : Subnet.common_of ch.subnet L (some (m + 1)) with
        | error e => rw [hco] at heq; simp at heq
        | ok res =>
          rw [hco] at heq
          cases res with
          | some S =>
            simp only [Except.ok.injEq] at heq
            rw [← heq, stepdown_eq, get_leafsList_cons_eq, get_leafsList_cons_eq]
            have hstep : leafContrib (AddressTree.node S [ch, AddressTree.of L]) =
                leafContrib ch ++ [AddressTree.of L] := by
              rw [leafContrib_not_leaf (by simp [AddressTree.isLeaf]),
                get_leafs_node_eq, get_leafsList_cons_eq, get_leafsList_cons_eq,
                get_leafsList_nil_eq]
              simp [leafContrib, AddressTree.of]
            rw [hstep]
            simp only [List.map_append, List.append_assoc]
            have : ((leafContrib ch).map AddressTree.subnet ++
                ([AddressTree.of L].map AddressTree.subnet ++
                  (AddressTree.get_leafsList rest).map AddressTree.subnet)).Perm
                (L :: ((leafContrib ch).map AddressTree.subnet ++
                  (AddressTree.get_leafsList rest).map AddressTree.subnet)) := by
              exact List.perm_middle
            exact this
          | none =>
            cases hrest : AddressTree.pushLoop m L rest with
            | error e => rw [hrest] at heq; simp at heq
            | ok rest' =>
              rw [hrest] at heq
              simp only [Except.ok.injEq] at heq
              have hfrest : L ∉ (AddressTree.get_leafsList rest).map AddressTree.subnet := by
                intro hmemL
                apply hfresh
                apply List.mem_append.mpr
                right
                exact hmemL
              have hperm := ih (fun x hx => hmem x (List.mem_cons_of_mem _ hx))
                (fun x hx => hih x (List.mem_cons_of_mem _ hx)) hfrest rest' hrest
              rw [← heq, get_leafsList_cons_eq ch rest', get_leafsList_cons_eq ch rest,
                List.map_append, List.map_append]
              exact (hperm.append_left _).trans List.perm_middle

theorem push_leafs : ∀ t, TreeInv t → ∀ L, Valid L → L.mask_len = 32 →
    t.subnet.contains L = true →
    L ∉ (AddressTree.get_leafs t).map AddressTree.subnet →
    ∀ t', AddressTree.push t L = .ok (t', none) →
    ((AddressTree.get_leafs t').map AddressTree.subnet).Perm
      (L :: (AddressTree.get_leafs t).map AddressTree.subnet) := by
  intro t
  induction t using AddressTree.strongInduction with
  | hleaf s =>
    intro _hInv L hL hL32 hc _hfresh t' hpush
    simp only [AddressTree.subnet] at hc
    rw [push_leaf_eq, if_pos hc] at hpush
    have ht : AddressTree.node s [AddressTree.of L] = t' :=
      congrArg Prod.fst (Except.ok.inj hpush)
    rw [← ht, get_leafs_node_eq, get_leafsList_cons_eq, get_leafsList_nil_eq,
      get_leafs_leaf_eq]
    simp [leafContrib, AddressTree.of, AddressTree.subnet]
  | hnode s cs ih =>
    intro hInv L hL hL32 hc hfresh t' hpush
    simp only [AddressTree.subnet] at hc
    obtain ⟨cs', heq, rfl⟩ := push_node_ok hpush
    rw [get_leafs_node_eq, get_leafs_node_eq]
    rw [get_leafs_node_eq] at hfresh
    cases hInv with
    | node32 hv h32 hcInv hcsub =>
      rename_i c
      have hLs : L = s := eq_of_contains_32 hv hL h32 hL32 hc
      rw [pushLoop_cons_eq] at heq
      cases hp : AddressTree.push c L with
      | error e => rw [hp] at heq; simp at heq
      | ok r =>
        obtain ⟨c', ro⟩ := r
        cases ro with
        | none =>
          rw [hp] at heq
          simp only [Except.ok.injEq] at heq
          obtain ⟨hsub', hnl', hcc⟩ := push_ok_shape hp
          cases hcl : c.isLeaf with
          | true =>
            exfalso
            cases c with
            | node s0 cs0 => simp [AddressTree.isLeaf] at hcl
            | leaf s0 =>
              apply hfresh
              simp only [AddressTree.subnet] at hcsub
              rw [get_leafsList_cons_eq, get_leafsList_nil_eq]
              simp [leafContrib, AddressTree.subnet, hLs, hcsub]
          | false =>
            have hfr : L ∉ (AddressTree.get_leafs c).map AddressTree.subnet := by
              intro hmemL
              apply hfresh
              rw [get_leafsList_cons_eq, get_leafsList_nil_eq, leafContrib_not_leaf hcl]
              simpa using hmemL
            have hperm := ih c (List.mem_singleton.mpr rfl) hcInv L hL hL32 hcc hfr c' hp
            rw [← heq, get_leafsList_cons_eq, get_leafsList_nil_eq,
              get_leafsList_cons_eq, get_leafsList_nil_eq,
              leafContrib_not_leaf hcl, leafContrib_not_leaf hnl']
            simpa using hperm
        | some rejected =>
          exfalso
          obtain ⟨_, _, hcf⟩ := push_err_eq hp
          have hct : c.subnet.contains L = true := by
            rw [hcsub, hLs]
            exact contains_refl hv
          rw [hct] at hcf
          exact absurd hcf (by simp)
    | nodeLt hv hlt hmembers hconds hpw =>
      exact pushLoop_leafs hL hL32 cs
        (fun ch hch => ⟨hmembers ch hch, (hconds ch hch).1, (hconds ch hch).2.1,
          (hconds ch hch).2.2⟩)
        (fun ch hch hI hcc hfr ch' hp => ih ch hch hI L hL hL32 hcc hfr ch' hp)
        hfresh cs' heq

theorem insertAll_leafs : ∀ (addrs : List Subnet) (t0 : AddressTree),
    TreeInv t0 → t0.subnet = Subnet.root →
    (∀ a ∈ addrs, Valid a ∧ a.mask_len = 32) →
    (∀ a ∈ addrs, a ∉ (AddressTree.get_leafs t0).map AddressTree.subnet) →
    addrs.Pairwise (· ≠ ·) →
    ∃ t, insertAll t0 addrs = .ok t ∧ TreeInv t ∧ t.subnet = Subnet.root ∧
      ((AddressTree.get_leafs t).map AddressTree.subnet).Perm
        (addrs ++ (AddressTree.get_leafs t0).map AddressTree.subnet) := by
  intro addrs
  induction addrs with
  | nil =>
    intro t0 hI hs _ _ _
    exact ⟨t0, rfl, hI, hs, List.Perm.refl _⟩
  | cons a rest ih =>
    intro t0 hI hs hval hfresh hpw
    obtain ⟨hVa, h32a⟩ := hval a (List.mem_cons_self a rest)
    have hc : t0.subnet.contains a = true := by
      rw [hs]
      exact root_contains a
    obtain ⟨t1, hpush, hI1, hsub1, _⟩ := push_sound t0 hI a hVa h32a hc
    have hperm1 := push_leafs t0 hI a hVa h32a hc
      (hfresh a (List.mem_cons_self a rest)) t1 hpush
    rw [List.pairwise_cons] at hpw
    obtain ⟨hpw_head, hpw_tail⟩ := hpw
    have hfresh' : ∀ b ∈ rest, b ∉ (AddressTree.get_leafs t1).map AddressTree.subnet := by
      intro b hb hmemb
      rcases List.mem_cons.mp ((hperm1.mem_iff).mp hmemb) with h | h
      · exact hpw_head b hb h.symm
      · exact hfresh b (List.mem_cons_of_mem _ hb) h
    obtain ⟨t, heq, hIt, hst, hperm⟩ := ih t1 hI1 (hsub1.trans hs)
      (fun b hb => hval b (List.mem_cons_of_mem _ hb)) hfresh' hpw_tail
    refine ⟨t, ?_, hIt, hst, ?_⟩
    · simp only [insertAll, hpush]
      exact heq
    · exact hperm.trans ((hperm1.append_left rest).trans List.perm_middle)

theorem pushSpec_leaf_eq (s L : Subnet) :
    AddressTree.pushSpec (.leaf s) L =
      if s.contains L then .ok (.node s [AddressTree.of L], none)
      else .ok (.leaf s, some L) := by
  rw [AddressTree.pushSpec.eq_def]
  rfl

theorem pushSpec_node_eq (s : Subnet) (cs : List AddressTree) (L : Subnet) :
    AddressTree.pushSpec (.node s cs) L =
      if s.contains L then
        match AddressTree.acceptScan L cs with
        | some r =>
          match r with
          | .error e => .error e
          | .ok cs' => .ok (.node s cs', none)
        | none =>
          match AddressTree.mergeScan s.mask_len L cs with
          | .error e => .error e
          | .ok cs' => .ok (.node s cs', none)
      else .ok (.node s cs, some L) := by
  rw [AddressTree.pushSpec.eq_def]
  rfl

theorem acceptScan_nil_eq (L : Subnet) : AddressTree.acceptScan L [] = none := by
  rw [AddressTree.acceptScan.eq_def]

theorem acceptScan_cons_eq (L : Subnet) (ch : AddressTree) (rest : List AddressTree) :
    AddressTree.acceptScan L (ch :: rest) =
      match AddressTree.pushSpec ch L with
      | .ok (ch', none) => some (.ok (ch' :: rest))
      | _ =>
        match AddressTree.acceptScan L rest with
        | some r =>
          some (match r with
                | .error e => .error e
                | .ok rest' => .ok (ch :: rest'))
        | none => none := by
  rw [AddressTree.acceptScan.eq_def]

theorem mergeScan_nil_eq (m : Nat) (L : Subnet) :
    AddressTree.mergeScan m L [] = .ok [AddressTree.of L] := by
  rw [AddressTree.mergeScan.eq_def]

theorem mergeScan_cons_eq (m : Nat) (L : Subnet) (ch : AddressTree) (rest : List AddressTree) :
    AddressTree.mergeScan m L (ch :: rest) =
      match Subnet.common_of ch.subnet L (some (m + 1)) with
      | .error e => .error e
      | .ok (some inter) =>
        .ok (AddressTree.stepdown ch inter (AddressTree.of L) :: rest)
      | .ok none =>
        match AddressTree.mergeScan m L rest with
        | .error e => .error e
        | .ok rest' => .ok (ch :: rest') := by
  rw [AddressTree.mergeScan.eq_def]

theorem pushSpec_not_contains {t : AddressTree} {L : Subnet}
    (h : t.subnet.contains L = false) :
    AddressTree.pushSpec t L = .ok (t, some L) := by
  cases t with
  | leaf s =>
    rw [pushSpec_leaf_eq]
    simp only [AddressTree.subnet] at h
    simp [h]
  | node s cs =>
    rw [pushSpec_node_eq]
    simp only [AddressTree.subnet] at h
    simp [h]

theorem acceptScan_none {L : Subnet} : ∀ {l : List AddressTree},
    (∀ b ∈ l, AddressTree.pushSpec b L = .ok (b, some L)) →
    AddressTree.acceptScan L l = none := by
  intro l
  induction l with
  | nil => intro _; exact acceptScan_nil_eq L
  | cons ch rest ih =>
    intro hall
    rw [acceptScan_cons_eq, hall ch (List.mem_cons_self ch rest),
      ih (fun b hb => hall b (List.mem_cons_of_mem _ hb))]

theorem pushLoop_eq_scan {m pb : Nat} {L : Subnet}
    (hm : m < 32) (hL : Valid L) (hL32 : L.mask_len = 32)
    (_hLb : L.bits &&& maskOf m = pb) :
    ∀ cs : List AddressTree,
    (∀ ch ∈ cs, childOk m pb ch) →
    cs.Pairwise (sibDiscr m) →
    (∀ ch ∈ cs, TreeInv ch → AddressTree.push ch L = AddressTree.pushSpec ch L) →
    AddressTree.pushLoop m L cs =
      (match AddressTree.acceptScan L cs with
       | some r => r
       | none => AddressTree.mergeScan m L cs) := by
  intro cs
  induction cs with
  | nil =>
    intro _ _ _
    rw [pushLoop_nil_eq, acceptScan_nil_eq, mergeScan_nil_eq]
  | cons ch rest ih =>
    intro hmem hpw hiheq
    obtain ⟨hInv, hlen, hagree, hleaf32⟩ := hmem ch (List.mem_cons_self ch rest)
    rw [List.pairwise_cons] at hpw
    obtain ⟨hpw_head, hpw_tail⟩ := hpw
    have hVch : Valid ch.subnet := inv_valid hInv
    by_cases hc : ch.subnet.contains L = true
    · obtain ⟨ch', hp, _, _, _⟩ := push_sound ch hInv L hL hL32 hc
      have hps : AddressTree.pushSpec ch L = .ok (ch', none) := by
        rw [← hiheq ch (List.mem_cons_self ch rest) hInv]
        exact hp
      simp only [pushLoop_cons_eq, hp, acceptScan_cons_eq, hps]
    · have hcf : ch.subnet.contains L = false := by
        cases hcv : ch.subnet.contains L
        · rfl
        · exact absurd hcv hc
      have hpf := push_not_contains hcf
      have hpsf := pushSpec_not_contains hcf
      have hmin1 : 1 ≤ min ch.subnet.mask_len L.mask_len := by
        rw [hL32]
        omega
      have hm1 : m + 1 ≤ min ch.subnet.mask_len L.mask_len := by
        rw [hL32]
        omega
      cases hco : Subnet.common_of ch.subnet L (some (m + 1)) with
      | error e =>
        exfalso
        rcases common_of_spec ch.subnet L (m+1) hVch hL hmin1 hm1 with
          ⟨K, heq', _⟩ | ⟨heq', _⟩
        · rw [heq'] at hco
          exact absurd hco (by simp)
        · rw [heq'] at hco
          exact absurd hco (by simp)
      | ok res =>
        cases res with
        | some S =>
          obtain ⟨hSb, hSm, hSl1, hSl2, hSagree, hSmax, hSV⟩ :=
            common_of_some_spec hVch hL hmin1 hm1 hco
          have hchL : ch.subnet.bits &&& maskOf (m+1) = L.bits &&& maskOf (m+1) :=
            agree_mono hSagree hSl1 (le_trans hSl2 (le_trans (min_le_left _ _) hVch.1))
          have hrestf : ∀ b ∈ rest, AddressTree.pushSpec b L = .ok (b, some L) := by
            intro b hb
            obtain ⟨hInvb, hlenb, _, _⟩ := hmem b (List.mem_cons_of_mem _ hb)
            have hVb : Valid b.subnet := inv_valid hInvb
            apply pushSpec_not_contains
            cases hcb : b.subnet.contains L with
            | false => rfl
            | true =>
              exfalso
              rcases (contains_iff hVb).mp hcb with ⟨_, hbits⟩
              exact hpw_head b hb (hchL.trans (contained_masked_eq hVb hlenb hbits))
          have hacc : AddressTree.acceptScan L (ch :: rest) = none := by
            simp only [acceptScan_cons_eq, hpsf, acceptScan_none hrestf]
          simp only [hacc, pushLoop_cons_eq, hpf, hco, mergeScan_cons_eq]
        | none =>
          have hIH := ih (fun x hx => hmem x (List.mem_cons_of_mem _ hx)) hpw_tail
            (fun x hx hI => hiheq x (List.mem_cons_of_mem _ hx) hI)
          cases har : AddressTree.acceptScan L rest with
          | some r =>
            have hacc : AddressTree.acceptScan L (ch :: rest) =
                some (match r with
                      | .error e => .error e
                      | .ok rest' => .ok (ch :: rest')) := by
              simp only [acceptScan_cons_eq, hpsf, har]
              try rfl
              try (cases r <;> rfl)
            have hlr : AddressTree.pushLoop m L rest = r := by
              rw [hIH, har]
            simp only [hacc, pushLoop_cons_eq, hpf, hco, hlr]
            try rfl
            try (cases r <;> rfl)
          | none =>
            have hacc : AddressTree.acceptScan L (ch :: rest) = none := by
              simp only [acceptScan_cons_eq, hpsf, har]
            have hlr : AddressTree.pushLoop m L rest = AddressTree.mergeScan m L rest := by
              rw [hIH, har]
            simp only [hacc, pushLoop_cons_eq, hpf, hco, hlr, mergeScan_cons_eq]

theorem push_eq_pushSpec : ∀ t, TreeInv t → ∀ L, Valid L → L.mask_len = 32 →
    AddressTree.push t L = AddressTree.pushSpec t L := by
  intro t
  induction t using AddressTree.strongInduction with
  | hleaf s =>
    intro _ L _ _
    rw [push_leaf_eq, pushSpec_leaf_eq]
  | hnode s cs ih =>
    intro hInv L hL hL32
    by_cases hc : Subnet.contains s L = true
    · cases hInv with
      | node32 hv h32 hcInv hcsub =>
        rename_i c
        have hLs : L = s := eq_of_contains_32 hv hL h32 hL32 hc
        have hcc : c.subnet.contains L = true := by
          rw [hcsub, hLs]
          exact contains_refl hv
        obtain ⟨c', hp, _, _, _⟩ := push_sound c hcInv L hL hL32 hcc
        have hps : AddressTree.pushSpec c L = .ok (c', none) := by
          rw [← ih c (List.mem_singleton.mpr rfl) hcInv L hL hL32]
          exact hp
        rw [push_node_eq, pushSpec_node_eq, if_pos hc, if_pos hc]
        simp only [pushLoop_cons_eq, hp, acceptScan_cons_eq, hps]
      | nodeLt hv hlt hmembers hconds hpw =>
        have hLb : L.bits &&& maskOf s.mask_len = s.bits := ((contains_iff hv).mp hc).2
        have hloop := pushLoop_eq_scan hlt hL hL32 hLb cs
          (fun x hx => ⟨hmembers x hx, (hconds x hx).1, (hconds x hx).2.1,
            (hconds x hx).2.2⟩)
          hpw
          (fun x hx hI => ih x hx hI L hL hL32)
        rw [push_node_eq, pushSpec_node_eq, if_pos hc, if_pos hc, hloop]
        cases har : AddressTree.acceptScan L cs with
        | some r => cases r <;> simp
        | none => cases AddressTree.mergeScan s.mask_len L cs <;> simp
    · have hcf : Subnet.contains s L = false := by
        cases hcv : Subnet.contains s L
        · rfl
        · exact absurd hcv hc
      have h1 : (AddressTree.node s cs).subnet.contains L = false := by
        simpa [AddressTree.subnet] using hcf
      rw [push_not_contains h1, pushSpec_not_contains h1]

theorem get_subnets_leaf_eq (s : Subnet) : AddressTree.get_subnets (.leaf s) = [] := by
  rw [AddressTree.get_subnets.eq_def]

theorem get_subnets_node_eq (s : Subnet) (cs : List AddressTree) :
    AddressTree.get_subnets (.node s cs) =
      if cs.any (fun ch => ch.subnet.mask_len == 32) then [.node s cs]
      else AddressTree.get_subnetsList cs := by
  rw [AddressTree.get_subnets.eq_def]

/-- the aggregation of a singleton insertion, computed once for reuse:
the root is reported directly with the address as its only member. -/
theorem single_insert_map : ∀ a : Subnet, Valid a → a.mask_len = 32 →
    insertAll AddressTree.new [a] = .ok (.node Subnet.root [.leaf a]) ∧
    AddressTree.get_subnets_map (.node Subnet.root [.leaf a]) =
      [(Subnet.toString Subnet.root, [Subnet.toString a])] := by
  intro a hV h32
  have h1 : AddressTree.push AddressTree.new a = .ok (.node Subnet.root [.leaf a], none) := by
    rw [AddressTree.new, push_leaf_eq, if_pos (root_contains a)]
    rfl
  constructor
  · simp only [insertAll, h1]
  · have hany : ([AddressTree.leaf a].any (fun ch => ch.subnet.mask_len == 32)) = true := by
      simp [AddressTree.subnet, h32]
    rw [AddressTree.get_subnets_map, get_subnets_node_eq, if_pos hany]
    simp only [List.foldl, mapInsert, get_leafs_node_eq, get_leafsList_cons_eq,
      get_leafsList_nil_eq, leafContrib, List.append_nil, List.map]
    rfl

theorem get_subnetsList_nil_eq : AddressTree.get_subnetsList [] = [] := by
  rw [AddressTree.get_subnetsList.eq_def]

theorem get_subnetsList_cons_eq (ch : AddressTree) (rest : List AddressTree) :
    AddressTree.get_subnetsList (ch :: rest) =
      AddressTree.get_subnets ch ++ AddressTree.get_subnetsList rest := by
  rw [AddressTree.get_subnetsList.eq_def]

/-- building the tree from 10.128.0.5 then 10.0.2.9: the second insertion
merges with the first leaf into the 10.0.0.0/8 intermediate node. -/
theorem two_addr_tree :
    insertAll AddressTree.new
      [{ bits := 0x0A800005, mask_len := 32, mask := maskOf 32 },
       { bits := 0x0A000209, mask_len := 32, mask := maskOf 32 }] =
      .ok (.node Subnet.root
        [.node { bits := 0x0A000000, mask_len := 8, mask := maskOf 8 }
          [.leaf { bits := 0x0A800005, mask_len := 32, mask := maskOf 32 },
           .leaf { bits := 0x0A000209, mask_len := 32, mask := maskOf 32 }]]) := by
  simp +decide [insertAll, AddressTree.push, AddressTree.pushLoop, Subnet.contains,
    Subnet.root, AddressTree.new, AddressTree.subnet, AddressTree.of, AddressTree.stepdown,
    maskOf, Subnet.common_of, Subnet.commonLoop]

/-- the aggregation of that tree: a single subnet 10.0.0.0/8 holding both. -/
theorem two_addr_map :
    AddressTree.get_subnets_map (.node Subnet.root
        [.node { bits := 0x0A000000, mask_len := 8, mask := maskOf 8 }
          [.leaf { bits := 0x0A800005, mask_len := 32, mask := maskOf 32 },
           .leaf { bits := 0x0A000209, mask_len := 32, mask := maskOf 32 }]]) =
      [("10.0.0.0/8", ["10.128.0.5/32", "10.0.2.9/32"])] := by
  rw [AddressTree.get_subnets_map]
  rw [get_subnets_node_eq]
  rw [if_neg (by decide), get_subnetsList_cons_eq, get_subnetsList_nil_eq,
    get_subnets_node_eq, if_pos (by decide)]
  simp only [List.append_nil, List.foldl, get_leafs_node_eq, get_leafsList_cons_eq,
    get_leafsList_nil_eq, leafContrib, List.map, mapInsert, List.append_nil]
  decide

/-- pushing the same /32 address onto its own equal leaf descends into the
leaf and creates a child, forming a parent-child chain. -/
theorem dup_insert_chain : ∀ a : Subnet, Valid a → a.mask_len = 32 →
    insertAll AddressTree.new [a, a] =
      .ok (.node Subnet.root [.node a [.leaf a]]) := by
  intro a hV _h32
  have h1 : AddressTree.push AddressTree.new a = .ok (.node Subnet.root [.leaf a], none) := by
    rw [AddressTree.new, push_leaf_eq, if_pos (root_contains a)]
    rfl
  have h2 : AddressTree.push (.node Subnet.root [.leaf a]) a =
      .ok (.node Subnet.root [.node a [.leaf a]], none) := by
    rw [push_node_eq, if_pos (root_contains a)]
    simp only [pushLoop_cons_eq, push_leaf_eq, if_pos (contains_refl hV)]
    rfl
  simp only [insertAll, h1, h2]

/-- first push onto a fresh root: 10.0.0.1. -/
theorem push_first_eq :
    AddressTree.push AddressTree.new
        { bits := 0x0A000001, mask_len := 32, mask := maskOf 32 } =
      .ok (.node Subnet.root
        [.leaf { bits := 0x0A000001, mask_len := 32, mask := maskOf 32 }], none) := by
  rw [AddressTree.new, push_leaf_eq, if_pos (root_contains _)]
  rfl

/-- second push of 128.0.0.1: the top bit differs from 10.0.0.1,
so it settles as a second sibling under the root. -/
theorem push_second_eq :
    AddressTree.push
        (.node Subnet.root
          [.leaf { bits := 0x0A000001, mask_len := 32, mask := maskOf 32 }])
        { bits := 0x80000001, mask_len := 32, mask := maskOf 32 } =
      .ok (.node Subnet.root
        [.leaf { bits := 0x0A000001, mask_len := 32, mask := maskOf 32 },
         .leaf { bits := 0x80000001, mask_len := 32, mask := maskOf 32 }], none) := by
  simp +decide [AddressTree.push, AddressTree.pushLoop, Subnet.contains, Subnet.root,
    AddressTree.subnet, AddressTree.of, maskOf, Subnet.common_of, Subnet.commonLoop]

/-- the prefix of length `n` through the address bits `x`. -/
def prefixAt (x n : Nat) : Subnet :=
  { bits := x &&& maskOf n, mask_len := n, mask := maskOf n }

theorem common_of_characterization : ∀ (p1 p2 : Subnet) (m : Nat), Valid p1 → Valid p2 →
    1 ≤ p1.mask_len → 1 ≤ p2.mask_len → m ≤ p1.mask_len → m ≤ p2.mask_len →
    (∀ S, Subnet.common_of p1 p2 (some m) = .ok (some S) →
      S.contains p1 = true ∧ S.contains p2 = true ∧ m ≤ S.mask_len ∧
      (∀ T, Valid T → T.contains p1 = true → T.contains p2 = true →
        T.mask_len ≤ S.mask_len)) ∧
    (Subnet.common_of p1 p2 (some m) = .ok none ↔
      ¬ ((prefixAt p1.bits m).contains p1 = true ∧
         (prefixAt p1.bits m).contains p2 = true)) ∧
    (m = 0 → Subnet.common_of p1 p2 (some m) ≠ .ok none) := by
  intro p1 p2 m h1 h2 hl1 hl2 hm1 hm2
  have hmin1 : 1 ≤ min p1.mask_len p2.mask_len := le_min hl1 hl2
  have hm : m ≤ min p1.mask_len p2.mask_len := le_min hm1 hm2
  have hPV : Valid (prefixAt p1.bits m) := by
    refine ⟨le_trans hm1 h1.1, rfl, ?_, ?_⟩
    · exact lt_of_le_of_lt Nat.and_le_right (maskOf_lt_two_pow m)
    · exact land_mask_canonical _ _
  have hc1 : (prefixAt p1.bits m).contains p1 = true := by
    rw [contains_iff hPV]
    exact ⟨hm1, rfl⟩
  have hc2iff : (prefixAt p1.bits m).contains p2 = true ↔
      p2.bits &&& maskOf m = p1.bits &&& maskOf m := by
    rw [contains_iff hPV]
    simp only [prefixAt]
    constructor
    · intro h
      exact h.2
    · intro h
      exact ⟨hm2, h⟩
  have hnone := common_of_none_iff h1 h2 hmin1 hm
  refine ⟨?_, ?_, ?_⟩
  · intro S hS
    obtain ⟨hSb, hSm, hSl1, hSl2, hSagree, hSmax, hSV⟩ :=
      common_of_some_spec h1 h2 hmin1 hm hS
    refine ⟨?_, ?_, hSl1, ?_⟩
    · rw [contains_iff hSV]
      exact ⟨le_trans hSl2 (min_le_left _ _), hSb.symm⟩
    · rw [contains_iff hSV]
      exact ⟨le_trans hSl2 (min_le_right _ _), by rw [hSb]; exact hSagree.symm⟩
    · intro T hT hTp1 hTp2
      rcases (contains_iff hT).mp hTp1 with ⟨hTl1, hTb1⟩
      rcases (contains_iff hT).mp hTp2 with ⟨hTl2, hTb2⟩
      by_contra hcon
      push_neg at hcon
      exact hSmax T.mask_len hcon (le_min hTl1 hTl2) (hTb1.trans hTb2.symm)
  · rw [hnone]
    constructor
    · rintro hne ⟨_, hcp2⟩
      exact hne ((hc2iff.mp hcp2).symm)
    · intro hno
      intro he
      apply hno
      exact ⟨hc1, hc2iff.mpr he.symm⟩
  · intro hm0
    intro he
    have := hnone.mp he
    apply this
    rw [hm0, maskOf_zero, land_zero_eq, land_zero_eq]

/-- C1: on every tree state of the program (reachable from a fresh root by
successful pushes of /32 addresses) and every incoming /32 prefix, the
single-pass insertion of the source behaves exactly like the two-phase
scan of the specification: delegation to the first recursively accepting
child is preferred over merging across the whole sibling list, and a
step-down merge happens only when no child at all accepts. -/
theorem claim1_delegation_preferred : ∀ t : AddressTree, Reachable t →
    ∀ L : Subnet, Valid L → L.mask_len = 32 →
    AddressTree.push t L = AddressTree.pushSpec t L :=
  fun t ht L hL h32 => push_eq_pushSpec t (reachable_inv ht).1 L hL h32

theorem claim1_witness :
    AddressTree.push AddressTree.new
        { bits := 0x01020304, mask_len := 32, mask := maskOf 32 } =
      AddressTree.pushSpec AddressTree.new
        { bits := 0x01020304, mask_len := 32, mask := maskOf 32 } :=
  claim1_delegation_preferred AddressTree.new Reachable.base _ (by decide) rfl

/-- C2: in every tree reachable from a fresh root by successful pushes of
/32 addresses, the children of any node are pairwise disjoint: neither
contains the other and no /32 address lies in both. -/
theorem claim2_siblings_disjoint : ∀ t : AddressTree, Reachable t →
    ∀ (p : Subnet) (cs : List AddressTree), AddressTree.node p cs ∈ t.allNodes →
    cs.Pairwise (fun a b =>
      a.subnet.contains b.subnet = false ∧ b.subnet.contains a.subnet = false ∧
      ∀ x : Nat,
        ¬(a.subnet.contains { bits := x, mask_len := 32, mask := maskOf 32 } = true ∧
          b.subnet.contains { bits := x, mask_len := 32, mask := maskOf 32 } = true)) :=
  fun t ht _ _ hmem => inv_siblings_disjoint (inv_allNodes t (reachable_inv ht).1 _ hmem)

theorem claim2_witness :
    ([AddressTree.leaf { bits := 0x0A000001, mask_len := 32, mask := maskOf 32 },
      AddressTree.leaf { bits := 0x80000001, mask_len := 32, mask := maskOf 32 }] :
        List AddressTree).Pairwise (fun a b =>
      a.subnet.contains b.subnet = false ∧ b.subnet.contains a.subnet = false ∧
      ∀ x : Nat,
        ¬(a.subnet.contains { bits := x, mask_len := 32, mask := maskOf 32 } = true ∧
          b.subnet.contains { bits := x, mask_len := 32, mask := maskOf 32 } = true)) :=
  claim2_siblings_disjoint _
    (Reachable.step (Reachable.step Reachable.base (by decide) rfl push_first_eq)
      (by decide) rfl push_second_eq)
    Subnet.root _ (by rw [allNodes_node_eq]; exact List.mem_cons_self _ _)

/-- C3 counterexample: inserting exactly 10.128.0.5 and 10.0.2.9 yields ONE
discovered subnet, and that subnet is precisely 10.0.0.0/8 - not the two
isolated subnets the claim asserts. -/
theorem claim3_counterexample :
    insertAll AddressTree.new
        [{ bits := 0x0A800005, mask_len := 32, mask := maskOf 32 },
         { bits := 0x0A000209, mask_len := 32, mask := maskOf 32 }] =
      .ok (.node Subnet.root
        [.node { bits := 0x0A000000, mask_len := 8, mask := maskOf 8 }
          [.leaf { bits := 0x0A800005, mask_len := 32, mask := maskOf 32 },
           .leaf { bits := 0x0A000209, mask_len := 32, mask := maskOf 32 }]]) ∧
    (AddressTree.get_subnets_map (.node Subnet.root
        [.node { bits := 0x0A000000, mask_len := 8, mask := maskOf 8 }
          [.leaf { bits := 0x0A800005, mask_len := 32, mask := maskOf 32 },
           .leaf { bits := 0x0A000209, mask_len := 32, mask := maskOf 32 }]])).length = 1 ∧
    (AddressTree.get_subnets_map (.node Subnet.root
        [.node { bits := 0x0A000000, mask_len := 8, mask := maskOf 8 }
          [.leaf { bits := 0x0A800005, mask_len := 32, mask := maskOf 32 },
           .leaf { bits := 0x0A000209, mask_len := 32, mask := maskOf 32 }]])).map Prod.fst =
      ["10.0.0.0/8"] :=
  ⟨two_addr_tree, by rw [two_addr_map]; rfl, by rw [two_addr_map]; rfl⟩

/-- C3 amended: inserting 10.128.0.5 then 10.0.2.9 into a fresh root merges
them via a step-down of the first leaf (common_of with min_mask_length 1
finds the 10.0.0.0/8 common prefix), so the aggregation yields exactly one
discovered subnet 10.0.0.0/8 whose members are the two addresses. -/
theorem claim3_amended :
    insertAll AddressTree.new
        [{ bits := 0x0A800005, mask_len := 32, mask := maskOf 32 },
         { bits := 0x0A000209, mask_len := 32, mask := maskOf 32 }] =
      .ok (.node Subnet.root
        [.node { bits := 0x0A000000, mask_len := 8, mask := maskOf 8 }
          [.leaf { bits := 0x0A800005, mask_len := 32, mask := maskOf 32 },
           .leaf { bits := 0x0A000209, mask_len := 32, mask := maskOf 32 }]]) ∧
    AddressTree.get_subnets_map (.node Subnet.root
        [.node { bits := 0x0A000000, mask_len := 8, mask := maskOf 8 }
          [.leaf { bits := 0x0A800005, mask_len := 32, mask := maskOf 32 },
           .leaf { bits := 0x0A000209, mask_len := 32, mask := maskOf 32 }]]) =
      [("10.0.0.0/8", ["10.128.0.5/32", "10.0.2.9/32"])] :=
  ⟨two_addr_tree, two_addr_map⟩

/-- C4 counterexample: after inserting the single address 10.1.2.3 the
aggregation holds exactly one discovered subnet, but its key is the
universal prefix 0.0.0.0/0 (the root reported directly), not the address
rendered as a /32 prefix. -/
theorem claim4_counterexample :
    insertAll AddressTree.new [{ bits := 0x0A010203, mask_len := 32, mask := maskOf 32 }] =
      .ok (.node Subnet.root
        [.leaf { bits := 0x0A010203, mask_len := 32, mask := maskOf 32 }]) ∧
    AddressTree.get_subnets_map (.node Subnet.root
        [.leaf { bits := 0x0A010203, mask_len := 32, mask := maskOf 32 }]) =
      [("0.0.0.0/0", ["10.1.2.3/32"])] ∧
    ("0.0.0.0/0" : String) ≠ "10.1.2.3/32" := by
  have h := single_insert_map { bits := 0x0A010203, mask_len := 32, mask := maskOf 32 }
    (by decide) rfl
  refine ⟨h.1, ?_, by decide⟩
  rw [h.2]
  decide

/-- C4 amended: inserting a single /32 address into a fresh root yields a
mapping with exactly one discovered subnet, whose key is the universal
prefix 0.0.0.0/0 (the root is reported directly because it has a mask-32
child) and whose member list contains exactly that address, rendered with
its /32 suffix. -/
theorem claim4_amended : ∀ a : Subnet, Valid a → a.mask_len = 32 →
    insertAll AddressTree.new [a] = .ok (.node Subnet.root [.leaf a]) ∧
    AddressTree.get_subnets_map (.node Subnet.root [.leaf a]) =
      [("0.0.0.0/0", [Subnet.toString a])] := by
  intro a hV h32
  have h := single_insert_map a hV h32
  refine ⟨h.1, ?_⟩
  rw [h.2]
  have hr : Subnet.toString Subnet.root = "0.0.0.0/0" := by decide
  rw [hr]

theorem claim4_witness :
    Valid { bits := 0x0A090909, mask_len := 32, mask := maskOf 32 } ∧
    (insertAll AddressTree.new [{ bits := 0x0A090909, mask_len := 32, mask := maskOf 32 }] =
        .ok (.node Subnet.root
          [.leaf { bits := 0x0A090909, mask_len := 32, mask := maskOf 32 }]) ∧
      AddressTree.get_subnets_map (.node Subnet.root
          [.leaf { bits := 0x0A090909, mask_len := 32, mask := maskOf 32 }]) =
        [("0.0.0.0/0",
          [Subnet.toString { bits := 0x0A090909, mask_len := 32, mask := maskOf 32 }])]) :=
  ⟨by decide, claim4_amended _ (by decide) rfl⟩

/-- C5: the claim fails on the code as soon as an input carries the valid
mask length 0: the initial mask shift overflows and a debug build panics
(a release build silently computes a wrong mask) although the stated
precondition holds.  For inputs of mask length at least 1 the claimed
characterization does hold: a Some result is the longest prefix containing
both inputs with mask length at least min_mask_length, None is returned
exactly when even the prefix at min_mask_length fails to contain both, and
with min_mask_length 0 the result is never None. -/
theorem claim5_common_of :
    Subnet.common_of Subnet.root Subnet.root (some 0) =
      .error "panic: attempt to shift left with overflow" ∧
    (∀ (p1 p2 : Subnet) (m : Nat), Valid p1 → Valid p2 →
      1 ≤ p1.mask_len → 1 ≤ p2.mask_len → m ≤ p1.mask_len → m ≤ p2.mask_len →
      (∀ S, Subnet.common_of p1 p2 (some m) = .ok (some S) →
        S.contains p1 = true ∧ S.contains p2 = true ∧ m ≤ S.mask_len ∧
        (∀ T, Valid T → T.contains p1 = true → T.contains p2 = true →
          T.mask_len ≤ S.mask_len)) ∧
      (Subnet.common_of p1 p2 (some m) = .ok none ↔
        ¬ ((prefixAt p1.bits m).contains p1 = true ∧
           (prefixAt p1.bits m).contains p2 = true)) ∧
      (m = 0 → Subnet.common_of p1 p2 (some m) ≠ .ok none)) :=
  ⟨by decide, common_of_characterization⟩

theorem claim5_witness :
    Valid { bits := 0x0A010203, mask_len := 32, mask := maskOf 32 } ∧
    Subnet.common_of { bits := 0x0A010203, mask_len := 32, mask := maskOf 32 }
        { bits := 0x0A010204, mask_len := 32, mask := maskOf 32 } (some 0) ≠ .ok none :=
  ⟨by decide,
    (claim5_common_of.2 { bits := 0x0A010203, mask_len := 32, mask := maskOf 32 }
      { bits := 0x0A010204, mask_len := 32, mask := maskOf 32 } 0
      (by decide) (by decide) (by decide) (by decide) (by decide) (by decide)).2.2 rfl⟩

/-- C6: after inserting any finite list of pairwise-distinct valid /32
addresses into a fresh root, the childless nodes collected by get_leafs
carry exactly the inserted addresses, one leaf per address (stated as a
permutation between the leaf subnets and the inserted list). -/
theorem claim6_no_loss_no_dup : ∀ addrs : List Subnet,
    (∀ a ∈ addrs, Valid a ∧ a.mask_len = 32) → addrs.Pairwise (· ≠ ·) →
    ∀ t, insertAll AddressTree.new addrs = .ok t →
    ((AddressTree.get_leafs t).map AddressTree.subnet).Perm addrs := by
  intro addrs hval hpw t heq
  obtain ⟨t', heq', _, _, hperm⟩ := insertAll_leafs addrs AddressTree.new
    (TreeInv.leaf valid_root) rfl hval
    (fun a _ => by rw [AddressTree.new, get_leafs_leaf_eq]; simp)
    hpw
  rw [heq] at heq'
  have ht : t = t' := Except.ok.inj heq'
  rw [ht]
  simpa [AddressTree.new, get_leafs_leaf_eq] using hperm

theorem claim6_witness :
    ((AddressTree.get_leafs (.node Subnet.root
        [.leaf { bits := 0x0A000001, mask_len := 32, mask := maskOf 32 },
         .leaf { bits := 0x80000001, mask_len := 32, mask := maskOf 32 }])).map
      AddressTree.subnet).Perm
      [{ bits := 0x0A000001, mask_len := 32, mask := maskOf 32 },
       { bits := 0x80000001, mask_len := 32, mask := maskOf 32 }] :=
  claim6_no_loss_no_dup _ (by decide) (by decide) _
    (by simp only [insertAll, push_first_eq, push_second_eq])

/-- C7 counterexample: on a tree rooted at the universal prefix holding the
single leaf 10.0.0.1/32, pushing the (valid) universal subnet 0.0.0.0/0
neither returns Ok nor Err: the merge bound 1 exceeds the incoming mask
length 0 and the code panics. -/
theorem claim7_counterexample :
    AddressTree.push
        (.node Subnet.root
          [.leaf { bits := 0x0A000001, mask_len := 32, mask := maskOf 32 }])
        Subnet.root =
      .error "panic: min_mask is bigger than curr_mask_len" := by
  simp +decide [AddressTree.push, AddressTree.pushLoop, Subnet.contains, Subnet.root,
    AddressTree.subnet, AddressTree.of, maskOf, Subnet.common_of]

/-- C7 amended: push returns Err carrying exactly the rejected subnet, with
the tree unchanged, precisely when the receiving node's prefix does not
contain the incoming subnet; and on every tree reachable from a fresh root
by /32 pushes, pushing any valid /32 subnet returns Ok (pushing wider
subnets can instead hit the merge-bound panic, as the counterexample
shows). -/
theorem claim7_amended :
    (∀ (t : AddressTree) (L : Subnet), t.subnet.contains L = false →
      AddressTree.push t L = .ok (t, some L)) ∧
    (∀ (t t' : AddressTree) (L L' : Subnet),
      AddressTree.push t L = .ok (t', some L') →
      t' = t ∧ L' = L ∧ t.subnet.contains L = false) ∧
    (∀ t : AddressTree, Reachable t → ∀ L : Subnet, Valid L → L.mask_len = 32 →
      ∃ t', AddressTree.push t L = .ok (t', none)) := by
  refine ⟨fun t L h => push_not_contains h, fun t t' L L' h => push_err_eq h, ?_⟩
  intro t ht L hL h32
  obtain ⟨hI, hs⟩ := reachable_inv ht
  obtain ⟨t', heq, _, _, _⟩ := push_sound t hI L hL h32 (by rw [hs]; exact root_contains L)
  exact ⟨t', heq⟩

theorem claim7_witness :
    ∃ t', AddressTree.push AddressTree.new
        { bits := 0x01020304, mask_len := 32, mask := maskOf 32 } = .ok (t', none) :=
  claim7_amended.2.2 AddressTree.new Reachable.base _ (by decide) rfl

/-- C8: the precondition violation does panic (first conjunct), but the
panic is not confined to it: with both inputs at the valid mask length 0
the precondition holds and the code still fails loudly on the mask shift
(second conjunct), refuting the only-if direction of the claim. -/
theorem claim8_panic_boundary :
    Subnet.common_of { bits := 0x0A000000, mask_len := 8, mask := maskOf 8 }
        { bits := 0x0A000000, mask_len := 8, mask := maskOf 8 } (some 9) =
      .error "panic: min_mask is bigger than curr_mask_len" ∧
    Subnet.common_of Subnet.root Subnet.root none =
      .error "panic: attempt to shift left with overflow" :=
  ⟨by decide, by decide⟩

/-- C9: Subnet construction is NOT total over the documented 0-32 range:
at mask_len 0 the mask shift `u32::MAX << 32` overflows and a debug build
panics (first conjunct; a release build would silently leave all mask bits
set).  For 1 <= mask_len <= 32 construction succeeds with the claimed
canonical mask and base (second conjunct), and mask_len > 32 is rejected
with an error (third conjunct). -/
theorem claim9_new_total :
    Subnet.new 0 0 0 0 0 = .error "panic: attempt to shift left with overflow" ∧
    (∀ o1 o2 o3 o4 ml : Nat, 1 ≤ ml → ml ≤ 32 →
      ∃ s, Subnet.new o1 o2 o3 o4 ml = .ok s ∧ s.mask_len = ml ∧ s.mask = maskOf ml ∧
        s.bits &&& s.mask = s.bits ∧ s.bits < 2^32) ∧
    (∀ o1 o2 o3 o4 ml : Nat, 32 < ml →
      Subnet.new o1 o2 o3 o4 ml = .error "mask len is > 32") := by
  refine ⟨by decide, ?_, ?_⟩
  · intro o1 o2 o3 o4 ml h1 h2
    rw [Subnet.new]
    rw [if_neg (by omega : ¬ ml > 32)]
    rw [if_neg (show ¬ ((32 - ml == 32) = true) by simp; omega)]
    refine ⟨_, rfl, rfl, ?_, ?_, ?_⟩
    · exact (shift_maskOf h1 h2)
    · exact land_mask_canonical _ _
    · calc (o1 * 2^24 + o2 * 2^16 + o3 * 2^8 + o4) &&& ((2^32 - 1) <<< (32 - ml)) % 2^32 ≤
          ((2^32 - 1) <<< (32 - ml)) % 2^32 := Nat.and_le_right
        _ < 2^32 := Nat.mod_lt _ (by norm_num)
  · intro o1 o2 o3 o4 ml h
    rw [Subnet.new, if_pos (by omega : ml > 32)]

theorem claim9_witness :
    (1 ≤ 24 ∧ 24 ≤ 32) ∧
    (∃ s, Subnet.new 10 2 3 4 24 = .ok s ∧ s.mask_len = 24 ∧ s.mask = maskOf 24 ∧
      s.bits &&& s.mask = s.bits ∧ s.bits < 2^32) :=
  ⟨by decide, claim9_new_total.2.1 10 2 3 4 24 (by decide) (by decide)⟩

/-- C10 counterexample: inserting 10.0.0.1 twice produces a root with a
SINGLE child: the first occurrence's node, which now carries the second
occurrence as its only child - a parent-child chain, not two sibling
leaves. -/
theorem claim10_counterexample :
    insertAll AddressTree.new
        [{ bits := 0x0A000001, mask_len := 32, mask := maskOf 32 },
         { bits := 0x0A000001, mask_len := 32, mask := maskOf 32 }] =
      .ok (.node Subnet.root
        [.node { bits := 0x0A000001, mask_len := 32, mask := maskOf 32 }
          [.leaf { bits := 0x0A000001, mask_len := 32, mask := maskOf 32 }]]) ∧
    ([AddressTree.node { bits := 0x0A000001, mask_len := 32, mask := maskOf 32 }
        [.leaf { bits := 0x0A000001, mask_len := 32, mask := maskOf 32 }]] :
      List AddressTree).length = 1 :=
  ⟨dup_insert_chain _ (by decide) rfl, rfl⟩

/-- C10 amended: inserting the same /32 address twice into a fresh root
makes the second insertion descend into the first occurrence's equal leaf
(containment between equal /32 prefixes holds) and attach there as its
only child: the duplicate appears as a parent-child chain of equal /32
prefixes, not as two sibling leaves. -/
theorem claim10_amended : ∀ a : Subnet, Valid a → a.mask_len = 32 →
    insertAll AddressTree.new [a, a] =
      .ok (.node Subnet.root [.node a [.leaf a]]) :=
  dup_insert_chain

theorem claim10_witness :
    Valid { bits := 0x0A070707, mask_len := 32, mask := maskOf 32 } ∧
    insertAll AddressTree.new
        [{ bits := 0x0A070707, mask_len := 32, mask := maskOf 32 },
         { bits := 0x0A070707, mask_len := 32, mask := maskOf 32 }] =
      .ok (.node Subnet.root
        [.node { bits := 0x0A070707, mask_len := 32, mask := maskOf 32 }
          [.leaf { bits := 0x0A070707, mask_len := 32, mask := maskOf 32 }]]) :=
  ⟨by decide, claim10_amended _ (by decide) rfl⟩
